import Mathlib

set_option maxHeartbeats 1000000

/-!
Shallow embedding of the core of the `evm-track` EVM observability engine
(Rust), together with proofs about its specified behaviour.

Modelling conventions:
* machine integers are `Nat`; `usize` overflow is made explicit with `% 2 ^ 64`
  where the Rust release build would wrap;
* byte strings (`&[u8]`, `Vec<u8>`, `B256`, `Address`) are `List Nat`;
* operations that can panic in Rust (ruint's `U256::to::<usize>`, which does
  `self.uint_try_to().expect(..)`, and out-of-order slice ranges
  `&data[a..b]` with `a > b`) are modelled with an explicit panic channel:
  `Except Unit α` where `.error ()` marks a panic;
* fallible RPC work is parameterised by environment functions returning
  `Except String _` (transport error) or `Option _` (missing object).
-/

namespace EvmTrack

/-- Exclusive upper bound of `usize` (the tool targets 64-bit platforms). -/
def usizeBound : Nat := 2 ^ 64

/-- Model of ruint `U256::to::<usize>`: `some` when the value fits in `usize`,
`none` when the conversion would panic (`.expect("Uint conversion error")`). -/
def toUsize (n : Nat) : Option Nat :=
  if n < usizeBound then some n else none

/-- Wrapping `usize` addition (Rust release-mode `+`). -/
def uadd (a b : Nat) : Nat := (a + b) % usizeBound

/-- Wrapping `usize` multiplication (Rust release-mode `*`). -/
def umul (a b : Nat) : Nat := (a * b) % usizeBound

/-- Big-endian integer value of a byte string (`U256::from_be_bytes`). -/
def wordValue (bs : List Nat) : Nat :=
  bs.foldl (fun acc b => acc * 256 + b) 0

/-- Rust slice `&data[off .. off + len]` (both bounds already checked). -/
def slice (data : List Nat) (off len : Nat) : List Nat :=
  (data.drop off).take len

/-- Lower-case hex digit for a nibble, as produced by the `hex` crate. -/
def hexDigit (n : Nat) : Char :=
  if n < 10 then Char.ofNat (48 + n) else Char.ofNat (87 + n)

/-- `hex::encode`: two lower-case hex digits per byte. -/
def hexEncode (bs : List Nat) : String :=
  bs.foldl (fun s b => (s.push (hexDigit (b / 16 % 16))).push (hexDigit (b % 16))) ""

/-- Contiguous-subsequence test on character lists (helper for `strContains`). -/
def containsSeq (needle : List Char) : List Char → Bool
  | [] => needle.isEmpty
  | c :: rest => needle.isPrefixOf (c :: rest) || containsSeq needle rest

/-- Rust `str::contains`: the needle occurs as a contiguous substring. -/
def strContains (s needle : String) : Bool :=
  containsSeq needle.toList s.toList

/-- Rust `str::starts_with` (structural implementation over the character
list; the library `String.startsWith` is equivalent but not
kernel-reducible). -/
def strStartsWith (s pre : String) : Bool :=
  pre.toList.isPrefixOf s.toList

/-- Rust `str::ends_with`. -/
def strEndsWith (s post : String) : Bool :=
  post.toList.reverse.isPrefixOf s.toList.reverse

/-- Rust `str::strip_suffix`-style removal of the last `n` characters. -/
def strDropRight (s : String) (n : Nat) : String :=
  ⟨s.toList.take (s.toList.length - n)⟩

/-- ASCII lower-casing of one character (the needles searched for are hex
digits, for which Rust's Unicode `to_lowercase` agrees with ASCII). -/
def charLower (c : Char) : Char :=
  if 65 ≤ c.toNat ∧ c.toNat ≤ 90 then Char.ofNat (c.toNat + 32) else c

/-- Rust `str::to_lowercase` (ASCII fragment). -/
def strToLower (s : String) : String :=
  ⟨s.toList.map charLower⟩

/-! ## ABI decoder (`src/abi.rs`) -/

/-- `abi.rs DecodedValue`.  The `string` constructor keeps the raw payload
bytes; `String::from_utf8_lossy` is abstracted away because no verified claim
inspects the converted text, only which constructor is produced. -/
inductive DecodedValue where
  | address (bytes : List Nat)
  | uint (v : Nat)
  | int (v : Nat)
  | bool (b : Bool)
  | bytes32 (bytes : List Nat)
  | bytes (bs : List Nat)
  | string (raw : List Nat)
  | array (elems : List DecodedValue)
  | unsupported (reason : String)

/-- `abi.rs DecodedField`. -/
structure DecodedField where
  name : String
  value : DecodedValue
  indexed : Bool

/-- One event input from the signature catalog (`alloy_json_abi::EventParam`:
the parts `try_decode_event` reads). -/
structure EventInput where
  name : String
  ty : String
  indexed : Bool
deriving DecidableEq

/-- The `inputs` list of an event ABI entry. -/
structure EventAbi where
  inputs : List EventInput
deriving DecidableEq

/-- `abi.rs EventSigEntry`. -/
structure EventSigEntry where
  abi : EventAbi
  name : String
  sig : String
deriving DecidableEq

/-- `abi.rs EventSigMap` (a `HashMap` keyed by topic0 hex; modelled as an
association list with unique keys). -/
abbrev EventSigMap := List (String × EventSigEntry)

/-- One function input from the signature catalog. -/
structure FuncInput where
  name : String
  ty : String
deriving DecidableEq

/-- The `inputs` list of a function ABI entry. -/
structure FuncAbi where
  inputs : List FuncInput
deriving DecidableEq

/-- `abi.rs FuncSigEntry`. -/
structure FuncSigEntry where
  abi : FuncAbi
  name : String
  sig : String
deriving DecidableEq

/-- `abi.rs FuncSigMap` (keyed by 4-byte selector hex). -/
abbrev FuncSigMap := List (String × FuncSigEntry)

/-- `abi.rs decode_indexed`: decode a 32-byte topic word. -/
def decodeIndexed (bytes : List Nat) (typ : String) : DecodedValue :=
  if typ = "address" then .address (bytes.drop 12)
  else if typ = "bool" then .bool (bytes.getD 31 0 != 0)
  else if strStartsWith typ "uint" then .uint (wordValue bytes)
  else if strStartsWith typ "int" then .int (wordValue bytes)
  else if typ = "bytes32" then .bytes32 bytes
  else .unsupported "indexed dynamic or unsupported type"

/-- `abi.rs decode_static_word`: decode one 32-byte head word in place. -/
def decodeStaticWord (word : List Nat) (typ : String) : DecodedValue :=
  if typ = "address" then .address (word.drop 12)
  else if typ = "bool" then .bool (word.getD 31 0 != 0)
  else if strStartsWith typ "uint" then .uint (wordValue word)
  else if strStartsWith typ "int" then .int (wordValue word)
  else if typ = "bytes32" then .bytes32 word
  else .unsupported "dynamic or unsupported type"

/-- `abi.rs is_dynamic_type`. -/
def isDynamicType (typ : String) : Bool :=
  typ = "string" || typ = "bytes" || strEndsWith typ "[]"

/-- Rust `str::strip_suffix("[]")`. -/
def stripArraySuffix (typ : String) : Option String :=
  if strEndsWith typ "[]" then some (strDropRight typ 2) else none

/-- `isize::MAX` on the 64-bit target: the byte-size ceiling of any Rust
allocation (`Layout::array` rejects larger totals). -/
def isizeMax : Nat := 2 ^ 63 - 1

/-- `size_of::<DecodedValue>()` on the 64-bit target.  The widest payload of
the enum is the 32-byte `U256` of `Uint`/`Int` (alignment 8; `Bytes32` is 32
bytes of alignment 1, `Vec`/`String` are 24, `&'static str` is 16), and the
discriminant occupies a further aligned 8 bytes, so the enum is 40 bytes. -/
def sizeOfDecodedValue : Nat := 40

/-- Element loop of `decode_dynamic` for `T[]`: walks `count` 32-byte slots
starting at `start`.  An out-of-range slot aborts the whole dynamic decode
(`return None` in Rust); a dynamic base type returns the
`"nested dynamic array"` marker; otherwise the slot is decoded as a static
word.  The slot offset `start + i * 32` uses wrapping `usize` arithmetic, and
a wrapped slot range makes the static-branch slice panic (`.error ()`). -/
def decodeArrayElems (data : List Nat) (base : String) (start : Nat) :
    Nat → Nat → List DecodedValue → Except Unit (Option DecodedValue)
  | _, 0, out => .ok (some (.array out))
  | i, rem + 1, out =>
    let off := uadd start (umul i 32)
    if uadd off 32 > data.length then .ok none
    else if isDynamicType base then .ok (some (.unsupported "nested dynamic array"))
    else if off > uadd off 32 then .error ()
    else decodeArrayElems data base start (i + 1) rem
      (out ++ [decodeStaticWord (slice data off 32) base])

/-- `abi.rs decode_dynamic`: decode a dynamic tail (`string`, `bytes`, `T[]`)
whose payload starts at `offset` inside `data`.  `.ok none` is Rust's `None`
(decode failure); `.error ()` is a panic: `U256::to::<usize>` on a word not
fitting `usize`, a slice whose wrapped end lies before its start, or — in the
`T[]` branch — `Vec::with_capacity(count)`, which runs before the element
loop and panics with a capacity overflow whenever
`count * size_of::<DecodedValue>()` exceeds `isize::MAX`. -/
def decodeDynamic (data : List Nat) (offset : Nat) (elemType : String) :
    Except Unit (Option DecodedValue) :=
  if uadd offset 32 > data.length then .ok none
  else if elemType = "string" ∨ elemType = "bytes" then
    if offset > uadd offset 32 then .error ()
    else
      match toUsize (wordValue (slice data offset 32)) with
      | none => .error ()
      | some len =>
        let start := offset + 32
        if uadd start len > data.length then .ok none
        else if start > uadd start len then .error ()
        else if elemType = "string" then .ok (some (.string (slice data start len)))
        else .ok (some (.bytes (slice data start len)))
  else
    match stripArraySuffix elemType with
    | some base =>
      if offset > uadd offset 32 then .error ()
      else
        match toUsize (wordValue (slice data offset 32)) with
        | none => .error ()
        | some count =>
          if count * sizeOfDecodedValue > isizeMax then .error ()
          else decodeArrayElems data base (offset + 32) 0 count []
    | none => .ok none

/-- Parameter loop of `try_decode_event`: `ti` is the next topic index,
`headIndex` the next non-indexed head slot.  Indexed inputs beyond the topic
list and non-indexed inputs whose head slot lies outside `data` are skipped
(`continue`); a failed dynamic decode contributes the
`"dynamic decode failed"` field.  `.error ()` is a propagated panic. -/
def decodeEventInputs (data : List Nat) (topics : List (List Nat)) :
    List EventInput → Nat → Nat → List DecodedField → Except Unit (List DecodedField)
  | [], _, _, fields => .ok fields
  | input :: rest, ti, headIndex, fields =>
    if input.indexed then
      if ti < topics.length then
        decodeEventInputs data topics rest (ti + 1) headIndex
          (fields ++ [⟨input.name, decodeIndexed (topics.getD ti []) input.ty, true⟩])
      else
        decodeEventInputs data topics rest ti headIndex fields
    else
      let headOff := umul headIndex 32
      if uadd headOff 32 > data.length then
        decodeEventInputs data topics rest ti (headIndex + 1) fields
      else if headOff > uadd headOff 32 then .error ()
      else if isDynamicType input.ty then
        match toUsize (wordValue (slice data headOff 32)) with
        | none => .error ()
        | some off =>
          match decodeDynamic data off input.ty with
          | .error () => .error ()
          | .ok (some v) =>
            decodeEventInputs data topics rest ti (headIndex + 1)
              (fields ++ [⟨input.name, v, false⟩])
          | .ok none =>
            decodeEventInputs data topics rest ti (headIndex + 1)
              (fields ++ [⟨input.name, .unsupported "dynamic decode failed", false⟩])
      else
        decodeEventInputs data topics rest ti (headIndex + 1)
          (fields ++ [⟨input.name, decodeStaticWord (slice data headOff 32) input.ty, false⟩])

/-- `abi.rs try_decode_event`.  `.ok none` is a catalog miss; `.error ()` is
a panic while decoding. -/
def tryDecodeEvent (topic0Hex : String) (topics : List (List Nat)) (data : List Nat)
    (events : EventSigMap) : Except Unit (Option (String × List DecodedField)) :=
  match events.find? (fun p => p.1 == topic0Hex) with
  | none => .ok none
  | some p =>
    match decodeEventInputs data topics p.2.abi.inputs 1 0 [] with
    | .error () => .error ()
    | .ok fields => .ok (some (p.2.name, fields))

/-- Argument loop of `try_decode_function`: head slots start at byte 4 (after
the selector); a head slot outside `calldata` stops the loop (`break`). -/
def decodeFunctionInputs (calldata : List Nat) (funcsData : List FuncInput) :
    Except Unit (List DecodedValue) :=
  go funcsData 0 []
where
  go : List FuncInput → Nat → List DecodedValue → Except Unit (List DecodedValue)
    | [], _, values => .ok values
    | input :: rest, i, values =>
      let off := uadd 4 (umul i 32)
      if uadd off 32 > calldata.length then .ok values
      else if off > uadd off 32 then .error ()
      else if isDynamicType input.ty then
        match toUsize (wordValue (slice calldata off 32)) with
        | none => .error ()
        | some rel =>
          match decodeDynamic calldata (uadd 4 rel) input.ty with
          | .error () => .error ()
          | .ok (some v) => go rest (i + 1) (values ++ [v])
          | .ok none => go rest (i + 1) (values ++ [.unsupported "dynamic decode failed"])
      else
        go rest (i + 1) (values ++ [decodeStaticWord (slice calldata off 32) input.ty])

/-- `abi.rs try_decode_function`. -/
def tryDecodeFunction (selectorHex : String) (calldata : List Nat) (funcs : FuncSigMap) :
    Except Unit (Option (String × List DecodedValue)) :=
  match funcs.find? (fun p => p.1 == selectorHex) with
  | none => .ok none
  | some p =>
    match decodeFunctionInputs calldata p.2.abi.inputs with
    | .error () => .error ()
    | .ok values => .ok (some (p.2.name, values))

/-! ## Signature catalog loading (`src/abi.rs load_event_sigs` /
`load_func_sigs`)

The file system is a function from path to optional contents, and JSON
deserialisation (serde) is an opaque parameter: the claims about loading only
concern the missing-file branch. -/

/-- `abi.rs load_event_sigs`: `fs::read_to_string` fails for a missing file
and the `?` propagates that error (with the `context` message); only an
existing file is parsed. -/
def loadEventSigs (parse : String → Except String EventSigMap)
    (fs : String → Option String) (path : String) : Except String EventSigMap :=
  match fs path with
  | none => .error "reading event_sigs.json"
  | some s => parse s

/-- `abi.rs load_func_sigs`. -/
def loadFuncSigs (parse : String → Except String FuncSigMap)
    (fs : String → Option String) (path : String) : Except String FuncSigMap :=
  match fs path with
  | none => .error "reading func_sigs.json"
  | some s => parse s

/-- Every pipeline call site uses `load_event_sigs(..).unwrap_or_default()`:
a load error is replaced by the empty map. -/
def loadEventSigsOrDefault (parse : String → Except String EventSigMap)
    (fs : String → Option String) (path : String) : EventSigMap :=
  match loadEventSigs parse fs path with
  | .ok m => m
  | .error _ => []

/-- Call-site behaviour for function signatures
(`load_func_sigs(..).unwrap_or_default()`). -/
def loadFuncSigsOrDefault (parse : String → Except String FuncSigMap)
    (fs : String → Option String) (path : String) : FuncSigMap :=
  match loadFuncSigs parse fs path with
  | .ok m => m
  | .error _ => []

/-! ## Record model (`src/actions/mod.rs` types used by the pipelines) -/

/-- `actions::SimpleLog` (receipt log entry). -/
structure SimpleLog where
  address : List Nat
  topics : List (List Nat)
  data : List Nat
  logIndex : Option Nat
  removed : Option Bool
deriving DecidableEq

/-- The parts of an `alloy_rpc_types_eth::Transaction` the modelled code
reads.  `sender` is the Rust `from` field (a Lean keyword); `callTarget` is
`Some a` for `TxKind::Call(a)` and `none` for a create. -/
structure RtTx where
  hash : Nat
  sender : List Nat
  callTarget : Option (List Nat)
  input : List Nat
  gasLimit : Nat
  gasPrice : Option Nat
deriving DecidableEq

/-- The parts of an `alloy_rpc_types_eth::TransactionReceipt` the modelled
code reads (receipt logs already converted to `SimpleLog`s). -/
structure TxReceipt where
  status : Bool
  gasUsed : Nat
  cumulativeGasUsed : Nat
  effectiveGasPrice : Nat
  blockNumber : Option Nat
  transactionIndex : Option Nat
  contractAddress : Option (List Nat)
  logs : List SimpleLog
deriving DecidableEq

/-- `actions::TxRecord` (funcArgs omitted from decidable equality because
`DecodedValue` is a nested inductive; record equalities are proved by
reduction). -/
structure TxRecord where
  hash : Nat
  sender : Option (List Nat)
  toAddr : Option (List Nat)
  inputSelector : Option (List Nat)
  funcName : Option String
  funcArgs : List DecodedValue
  gas : Option Nat
  gasPrice : Option Nat
  effectiveGasPrice : Option Nat
  status : Option Nat
  gasUsed : Option Nat
  cumulativeGasUsed : Option Nat
  blockNumber : Option Nat
  txIndex : Option Nat
  contractAddress : Option (List Nat)
  receiptLogs : Option (List SimpleLog)

/-- Shared construction of the receipt-dependent `TxRecord` fields, exactly
as written (twice, identically) in `runtime/cache.rs process_transaction`
and `runtime/realtime.rs run_blocks_subscribe`.  `hashVal` is `tx.tx_hash()`
at the first site and the log's `txh` at the second (equal values for a
transaction fetched by that hash). -/
def buildTxRecord (hashVal : Nat) (tx : RtTx) (receipt : Option TxReceipt)
    (sel : List Nat) (fname : Option String) (args : List DecodedValue) : TxRecord :=
  { hash := hashVal
    sender := some tx.sender
    toAddr := tx.callTarget
    inputSelector := some sel
    funcName := fname
    funcArgs := args
    gas := some tx.gasLimit
    gasPrice := tx.gasPrice
    effectiveGasPrice := receipt.map (·.effectiveGasPrice)
    status := receipt.map (fun r => if r.status then 1 else 0)
    gasUsed := receipt.map (·.gasUsed)
    cumulativeGasUsed := receipt.map (·.cumulativeGasUsed)
    blockNumber := receipt.bind (·.blockNumber)
    txIndex := receipt.bind (·.transactionIndex)
    contractAddress := receipt.bind (·.contractAddress)
    receiptLogs := receipt.map (·.logs) }

/-! ## Tx/receipt cache (`src/runtime/cache.rs`) -/

/-- One outbound RPC request issued by the modelled code (hashes are `Nat`
stand-ins for `B256`). -/
inductive RpcCall where
  | getTx (h : Nat)
  | getReceipt (h : Nat)
deriving DecidableEq

/-- `cache.rs CachedTxData`. -/
structure CachedTxData where
  transaction : RtTx
  receipt : Option TxReceipt
deriving DecidableEq

/-- `TxCache::fetch_transactions`: walk the hash set (here: one enumeration
of it), skip hashes already cached, issue `get_transaction_by_hash` for the
rest (a transport error aborts through `?`), and for each transaction found
issue `get_transaction_receipt` (whose errors are swallowed by
`.ok().flatten()`, modelled by `envReceipt` returning an `Option`).  The
returned list records the RPC calls issued, in order. -/
def fetchTransactions (envTx : Nat → Except String (Option RtTx))
    (envReceipt : Nat → Option TxReceipt) :
    List Nat → List (Nat × CachedTxData) → List RpcCall →
    Except String (List (Nat × CachedTxData) × List RpcCall)
  | [], cache, calls => .ok (cache, calls)
  | h :: hs, cache, calls =>
    if cache.any (fun p => p.1 == h) then
      fetchTransactions envTx envReceipt hs cache calls
    else
      match envTx h with
      | .error e => .error e
      | .ok none => fetchTransactions envTx envReceipt hs cache (calls ++ [.getTx h])
      | .ok (some tx) =>
        fetchTransactions envTx envReceipt hs (cache ++ [(h, ⟨tx, envReceipt h⟩)])
          (calls ++ [.getTx h, .getReceipt h])

/-- `cache.rs process_transaction`: dispatches a `TxRecord` (returned as
`some`) only when the input data holds at least a 4-byte selector; shorter
input falls through without dispatching (`.ok none`).  `.error ()` is a
panic propagated out of `try_decode_function`. -/
def processTransaction (funcs : FuncSigMap) (tx : RtTx) (receipt : Option TxReceipt) :
    Except Unit (Option TxRecord) :=
  if 4 ≤ tx.input.length then
    let sel := tx.input.take 4
    match tryDecodeFunction ("0x" ++ hexEncode sel) tx.input funcs with
    | .error () => .error ()
    | .ok dec =>
      .ok (some (buildTxRecord tx.hash tx receipt sel (dec.map (·.1))
        ((dec.map (·.2)).getD [])))
  else .ok none

/-! ## Real-time block pipeline, per-log transaction handling
(`src/runtime/realtime.rs run_blocks_subscribe`, lines 339-419) -/

/-- Abort of one per-log handling step: a transport error propagated by `?`,
or a decoder panic. -/
inductive RtAbort where
  | rpc (e : String)
  | panicked
deriving DecidableEq

/-- The body of `if let Some(txh) = v.transaction_hash { .. }` in
`run_blocks_subscribe`: fetch the transaction; only when its input holds a
4-byte selector decode it, fetch the receipt, and dispatch a `TxRecord`.
Returns the RPC calls issued and the dispatched record, if any. -/
def realtimeHandleLogTx (funcs : FuncSigMap) (envTx : Nat → Except String (Option RtTx))
    (envReceipt : Nat → Option TxReceipt) (txh : Nat) :
    Except RtAbort (List RpcCall × Option TxRecord) :=
  match envTx txh with
  | .error e => .error (.rpc e)
  | .ok none => .ok ([.getTx txh], none)
  | .ok (some tx) =>
    if 4 ≤ tx.input.length then
      let sel := tx.input.take 4
      match tryDecodeFunction ("0x" ++ hexEncode sel) tx.input funcs with
      | .error () => .error .panicked
      | .ok dec =>
        .ok ([.getTx txh, .getReceipt txh],
          some (buildTxRecord txh tx (envReceipt txh) sel (dec.map (·.1))
            ((dec.map (·.2)).getD [])))
    else .ok ([.getTx txh], none)

/-! ## Real-time event pipeline resubscribe loop
(`src/runtime/realtime.rs run_events_subscribe`) -/

/-- `realtime.rs MAX_BACKOFF`. -/
def MAX_BACKOFF : Nat := 30

/-- The backoff update at the bottom of the resubscribe loop:
`backoff = (backoff * 2).min(MAX_BACKOFF)`. -/
def nextBackoff (b : Nat) : Nat := min (b * 2) MAX_BACKOFF

/-- Loop state of `run_events_subscribe`: the highest block seen and the
current backoff (seconds).  The loop enters with `backoff = 1`. -/
structure EventsLoopState where
  lastSeen : Nat
  backoff : Nat
deriving DecidableEq

/-- One iteration of the resubscribe loop.  A session is what one successful
`subscribe_logs` stream delivered before ending: the streamed logs' block
numbers, and the chain head read after the stream ended (a failed subscribe
exits `run_events_subscribe` through `?` instead of iterating).  The
iteration dispatches records, updates `last_seen`, backfills, sleeps
`backoff` seconds, and doubles the backoff up to `MAX_BACKOFF`; the sleep
performed is returned alongside the next state. -/
def eventsLoopIter (st : EventsLoopState) (session : List (Option Nat) × Nat) :
    Nat × EventsLoopState :=
  let lastSeen1 := session.1.foldl (fun l b => b.getD l) st.lastSeen
  let cur := session.2
  let lastSeen2 := if cur > lastSeen1 then cur else lastSeen1
  (st.backoff, { lastSeen := lastSeen2, backoff := nextBackoff st.backoff })

/-- Sleeps performed by successive iterations of the resubscribe loop. -/
def eventsLoopSleeps (st : EventsLoopState) :
    List (List (Option Nat) × Nat) → List Nat
  | [] => []
  | s :: rest =>
    (eventsLoopIter st s).1 :: eventsLoopSleeps (eventsLoopIter st s).2 rest

/-! ## Global rate limiter (`src/throttle.rs`)

Timed model: a trace of millisecond-stamped events.  A `tick` is one firing
of the background `interval(Duration::from_secs(1))` refill task (so tick
times are multiples of 1000); an `acq` is one `acquire()` completing (it
takes a permit and forgets it).  Permits follow `Semaphore` semantics:
`acquire` completes only when a permit is available; the refill task tops the
pool back up to `capacity`. -/

/-- Kind of a timed throttle event. -/
inductive ThrKind where
  | tick
  | acq
deriving DecidableEq

/-- A timed throttle event. -/
structure ThrEvent where
  time : Nat
  kind : ThrKind
deriving DecidableEq

/-- Permit-state evolution over a trace, starting from `p` available permits
(the semaphore is created with `capacity`).  `none` marks an inadmissible
trace: an `acq` completed while no permit was available.  A `tick` performs
`if available < cap { add_permits(cap - available) }`. -/
def throttleRun (cap : Nat) : List ThrEvent → Nat → Option Nat
  | [], p => some p
  | e :: es, p =>
    match e.kind with
    | .tick => throttleRun cap es (if p < cap then cap else p)
    | .acq => if p = 0 then none else throttleRun cap es (p - 1)

/-- Event times strictly increase (millisecond granularity; at most one
event per instant). -/
def Chrono (tr : List ThrEvent) : Prop :=
  tr.Pairwise (fun a b => a.time < b.time)

/-- Refill ticks happen only at whole-second instants. -/
def TicksAligned (tr : List ThrEvent) : Prop :=
  ∀ e ∈ tr, e.kind = ThrKind.tick → e.time % 1000 = 0

/-- A trace the throttle can actually produce: chronological, ticks at
second boundaries, and every `acq` backed by an available permit. -/
def Admissible (cap : Nat) (tr : List ThrEvent) : Prop :=
  Chrono tr ∧ TicksAligned tr ∧ (throttleRun cap tr cap).isSome

/-- Number of acquires completing in the half-open window `[lo, hi)`. -/
def acqCountIn (tr : List ThrEvent) (lo hi : Nat) : Nat :=
  (tr.filter (fun e => e.kind == ThrKind.acq
    && decide (lo ≤ e.time) && decide (e.time < hi))).length

/-! ## Action registry (`src/registry.rs`) -/

/-- The registry's factory map: action name to its `dependencies()` list.
Rust stores a `HashMap<String, Box<dyn ActionFactory>>`; only the name and
the dependency list matter to `resolve_dependencies`.  Keys are unique
(HashMap invariant), stated as a hypothesis where needed. -/
structure Registry where
  deps : List (String × List String)

/-- `ActionRegistry::get_dependencies`. -/
def depsOf (r : Registry) (n : String) : Option (List String) :=
  (r.deps.find? (fun p => p.1 == n)).map (·.2)

/-- `ActionRegistry::is_registered`. -/
def isRegistered (r : Registry) (n : String) : Bool :=
  r.deps.any (fun p => p.1 == n)

/-- Error produced by dependency resolution.  The Rust code returns
`AppError::Config("Circular dependency detected involving action: {name}")`;
`outOfFuel` is an artefact of the fuel-indexed embedding of the recursive
`visit_action` and is proved unreachable for the fuel bound used. -/
inductive ResolveErr where
  | circular (name : String)
  | outOfFuel
deriving DecidableEq

/-- Mutable state of `resolve_dependencies`: the output list and the
tri-state DFS markers (`visiting` = on-stack, `visited` = done). -/
structure VisitSt where
  resolved : List String
  visiting : List String
  visited : List String
deriving DecidableEq

mutual

/-- `ActionRegistry::visit_action` (fuel-indexed; the recursion depth is
bounded by the number of registered actions, see `visitAction_no_fuel_error`).
On-stack revisit fails with the circular-dependency error; a visited name
returns unchanged; otherwise the name is pushed on `visiting`, its
dependencies are visited (unregistered ones are warned about and skipped),
and the name is moved to `visited` and appended to `resolved`. -/
def visitAction (r : Registry) (fuel : Nat) (name : String) (st : VisitSt) :
    Except ResolveErr VisitSt :=
  match fuel with
  | 0 => .error .outOfFuel
  | f + 1 =>
    if name ∈ st.visiting then .error (.circular name)
    else if name ∈ st.visited then .ok st
    else
      let st1 : VisitSt := { st with visiting := name :: st.visiting }
      let after :=
        match depsOf r name with
        | none => Except.ok st1
        | some ds => visitDeps r f ds st1
      match after with
      | .error e => .error e
      | .ok st2 =>
        .ok { resolved := st2.resolved ++ [name]
              visiting := st2.visiting.erase name
              visited := name :: st2.visited }
termination_by (fuel, 0)

/-- The `for dep in deps` loop inside `visit_action`. -/
def visitDeps (r : Registry) (fuel : Nat) (ds : List String) (st : VisitSt) :
    Except ResolveErr VisitSt :=
  match ds with
  | [] => .ok st
  | d :: rest =>
    if isRegistered r d then
      match visitAction r fuel d st with
      | .error e => .error e
      | .ok st' => visitDeps r fuel rest st'
    else
      visitDeps r fuel rest st
termination_by (fuel, ds.length + 1)

end

/-- Fuel bound sufficient for every input: the DFS stack holds distinct
names, all registered except possibly the outermost one. -/
def resolveFuel (r : Registry) : Nat := r.deps.length + 2

/-- The `for name in action_names` loop of
`ActionRegistry::resolve_dependencies`. -/
def resolveTopLevel (r : Registry) : List String → VisitSt → Except ResolveErr VisitSt
  | [], st => .ok st
  | n :: ns, st =>
    if n ∈ st.visited then resolveTopLevel r ns st
    else
      match visitAction r (resolveFuel r) n st with
      | .error e => .error e
      | .ok st' => resolveTopLevel r ns st'

/-- `ActionRegistry::resolve_dependencies`. -/
def resolveDependencies (r : Registry) (names : List String) :
    Except ResolveErr (List String) :=
  (resolveTopLevel r names ⟨[], [], []⟩).map (·.resolved)

/-- Dependency edge between registered actions: `d` is a registered
dependency of the registered action `n`. -/
def Edge (r : Registry) (n d : String) : Prop :=
  isRegistered r n = true ∧ isRegistered r d = true ∧ d ∈ (depsOf r n).getD []

/-- Non-empty dependency path (transitive closure of `Edge`). -/
inductive DepPath (r : Registry) : String → String → Prop where
  | single {a b} : Edge r a b → DepPath r a b
  | cons {a b c} : Edge r a b → DepPath r b c → DepPath r a c

/-- A name lying on a dependency cycle. -/
def OnCycle (r : Registry) (m : String) : Prop := DepPath r m m

/-- DFS state invariant maintained by `visit_action` (proof artefact): the
output list has no duplicates, `visited` and `resolved` hold the same names,
every resolved name's registered dependencies are resolved at strictly
smaller indices, the stack has no duplicates, and no resolved name is still
on the stack. -/
def VisitInv (r : Registry) (st : VisitSt) : Prop :=
  st.resolved.Nodup ∧
  (∀ x, x ∈ st.visited ↔ x ∈ st.resolved) ∧
  (∀ n d, n ∈ st.resolved → Edge r n d →
    d ∈ st.resolved ∧ st.resolved.indexOf d < st.resolved.indexOf n) ∧
  st.visiting.Nodup ∧
  (∀ x ∈ st.resolved, x ∉ st.visiting)

/-- The DFS stack read top-down is a dependency chain: each entry is a
registered dependency of the entry pushed before it (proof artefact). -/
inductive StackChain (r : Registry) : List String → Prop where
  | nil : StackChain r []
  | single (a : String) : StackChain r [a]
  | cons {a b : String} {rest : List String} :
      Edge r b a → StackChain r (b :: rest) → StackChain r (a :: b :: rest)

/-- Number of registered names not currently on the DFS stack (the fuel
measure of the embedding). -/
def notVisitingCount (r : Registry) (visiting : List String) : Nat :=
  ((r.deps.map Prod.fst).filter (fun x => decide (x ∉ visiting))).length

/-- What a successful `visitAction` guarantees (proof artefact): invariant
preserved, stack restored, output extended on the right, `visited` grown
monotonically, and the visited name marked done. -/
def VisitOkSpec (r : Registry) (name : String) (st st' : VisitSt) : Prop :=
  VisitInv r st' ∧ st'.visiting = st.visiting ∧
  (∃ t, st'.resolved = st.resolved ++ t) ∧
  (∀ x ∈ st.visited, x ∈ st'.visited) ∧ name ∈ st'.visited

/-- What a successful `visitDeps` guarantees (proof artefact): as above,
with every registered dependency in the list marked done. -/
def VisitDepsOkSpec (r : Registry) (ds : List String) (st st' : VisitSt) : Prop :=
  VisitInv r st' ∧ st'.visiting = st.visiting ∧
  (∃ t, st'.resolved = st.resolved ++ t) ∧
  (∀ x ∈ st.visited, x ∈ st'.visited) ∧
  (∀ d ∈ ds, isRegistered r d = true → d ∈ st'.visited)

/-! ## Initializer-scan analyzer (`src/actions/initscan.rs`) -/

/-- `initscan.rs TraceNode` (only the `error` field is deserialised). -/
structure TraceNode where
  error : String
deriving DecidableEq

/-- `initscan.rs TraceCallResult`.  `stateDiff` holds the string
`serde_json::to_string(&state_diff)` would produce; the heuristic only ever
uses that serialisation. -/
structure TraceCallResult where
  traces : List TraceNode
  stateDiff : String
deriving DecidableEq

/-- `initscan.rs trace_success`: every trace entry has an empty error. -/
def traceSuccess (tr : TraceCallResult) : Bool :=
  tr.traces.all (fun t => t.error == "")

/-- `initscan.rs state_diff_contains_any_addr`: lowercase the serialised
stateDiff and search it for the hex of any check address (the Rust code
collects the non-empty needles into a `HashSet` first; deduplication does
not change `any`). -/
def stateDiffContainsAnyAddr (tr : TraceCallResult) (addrs : List (List Nat)) : Bool :=
  if addrs.isEmpty then false
  else
    let s := strToLower tr.stateDiff
    ((addrs.map (fun a => hexEncode a)).filter (fun n => n ≠ "")).any
      (fun n => strContains s n)

/-- `initscan.rs KnownInit`. -/
structure KnownInit where
  contract : List Nat
  calldata : List Nat
deriving DecidableEq

/-- The fields of `InitscanOptions` that the modelled control flow reads
(`from`, delays, concurrency, retry frequency, the unused `usd_threshold`
and the debug flag only affect omitted side channels). -/
structure InitscanOptions where
  check_addresses : List (List Nat)
  webhook_url : Option String
  initializable_contracts_filepath : Option String
deriving DecidableEq

/-- Analyzer state: the in-memory `known` list (behind the `RwLock`) and the
persisted file contents (`none` when nothing has been written yet). -/
structure InitscanState where
  known : List KnownInit
  disk : Option (List KnownInit)
deriving DecidableEq

/-- `InitscanAction::add_known_and_save`: without a configured persistence
path this is a no-op; otherwise a contract not yet in `known` is appended
and the list saved (`save_known_to_file` runs after the in-memory push, so a
failed write — `saveOk = false` — still leaves the entry in memory and
propagates an error, which the caller discards). -/
def addKnownAndSave (opts : InitscanOptions) (contract calldata : List Nat)
    (saveOk : Bool) (st : InitscanState) : InitscanState × Except String Unit :=
  match opts.initializable_contracts_filepath with
  | none => (st, .ok ())
  | some _ =>
    if st.known.any (fun k => k.contract == contract) then (st, .ok ())
    else
      let newKnown := st.known ++ [⟨contract, calldata⟩]
      if saveOk then ({ known := newKnown, disk := some newKnown }, .ok ())
      else ({ st with known := newKnown }, .error "save failed")

/-- RPC responses for one evaluation of a candidate calldata against one
contract: the `eth_call` outcome, the candidate `trace_call`, the control
`trace_call` with the random selector `0x6fcb831b`, and whether the
persistence write would succeed. -/
structure InitRpcEnv where
  ethCall : Except String Bool
  traceCandidate : Except String TraceCallResult
  traceControl : Except String TraceCallResult
  saveOk : Bool

/-- `InitscanAction::try_init_with_calldata`: the two-phase heuristic run by
the deployment handler for one candidate.  The webhook/stdout alert is a
side effect outside the state; `add_known_and_save`'s error is discarded
(`let _ = ..`). -/
def tryInitWithCalldata (env : InitRpcEnv) (opts : InitscanOptions)
    (contract calldata : List Nat) (st : InitscanState) :
    InitscanState × Except String Unit :=
  match env.ethCall with
  | .error e => (st, .error e)
  | .ok ok =>
    if !ok then (st, .ok ())
    else
      match env.traceCandidate with
      | .error e => (st, .error e)
      | .ok tr =>
        if !traceSuccess tr then (st, .ok ())
        else
          let contains := stateDiffContainsAnyAddr tr opts.check_addresses
          if !contains then (st, .ok ())
          else
            match env.traceControl with
            | .error e => (st, .error e)
            | .ok tr2 =>
              let contains2 := traceSuccess tr2
                && stateDiffContainsAnyAddr tr2 opts.check_addresses
              if contains && !contains2 then
                ((addKnownAndSave opts contract calldata env.saveOk st).1, .ok ())
              else (st, .ok ())

/-! ## Specification helpers (shapes of call traces, used only in theorem
statements and proofs) -/

/-- Whether an RPC call is a `get_transaction_by_hash`. -/
def isGetTx : RpcCall → Bool
  | .getTx _ => true
  | .getReceipt _ => false

/-- Whether an RPC call is a `get_transaction_receipt`. -/
def isGetReceipt : RpcCall → Bool
  | .getTx _ => false
  | .getReceipt _ => true

/-- Canonical call trace of `fetch_transactions` over fresh hashes: one
`getTx` per hash, followed by a `getReceipt` exactly when the transaction
was found. -/
def expectedCalls (envTx : Nat → Except String (Option RtTx)) (hs : List Nat) :
    List RpcCall :=
  hs.flatMap (fun h =>
    match envTx h with
    | .ok (some _) => [RpcCall.getTx h, RpcCall.getReceipt h]
    | _ => [RpcCall.getTx h])

/-- Cache entries `fetch_transactions` adds for fresh hashes. -/
def fetchedEntries (envTx : Nat → Except String (Option RtTx))
    (envReceipt : Nat → Option TxReceipt) (hs : List Nat) :
    List (Nat × CachedTxData) :=
  hs.filterMap (fun h =>
    match envTx h with
    | .ok (some tx) => some (h, ⟨tx, envReceipt h⟩)
    | _ => none)

/-! # Lemmas and claim theorems -/

/-- Case split on one run of `try_init_with_calldata`: either the analyzer
state is returned untouched, or the run reached the `contains && !contains2`
branch (candidate trace positive, control trace negative) and the state is
whatever `add_known_and_save` produces. -/
theorem tryInit_cases (env : InitRpcEnv) (opts : InitscanOptions)
    (contract calldata : List Nat) (st : InitscanState) :
    (tryInitWithCalldata env opts contract calldata st).1 = st ∨
    (∃ tr tr2, env.traceCandidate = .ok tr ∧ env.traceControl = .ok tr2 ∧
      traceSuccess tr = true ∧
      stateDiffContainsAnyAddr tr opts.check_addresses = true ∧
      (traceSuccess tr2 && stateDiffContainsAnyAddr tr2 opts.check_addresses) = false ∧
      (tryInitWithCalldata env opts contract calldata st).1
        = (addKnownAndSave opts contract calldata env.saveOk st).1) := by
  unfold tryInitWithCalldata
  cases hec : env.ethCall with
  | error e => exact Or.inl rfl
  | ok okv =>
    cases okv with
    | false => exact Or.inl rfl
    | true =>
      cases htc : env.traceCandidate with
      | error e => exact Or.inl rfl
      | ok tr =>
        cases hts : traceSuccess tr with
        | false => exact Or.inl (by simp [hts])
        | true =>
          cases hsd : stateDiffContainsAnyAddr tr opts.check_addresses with
          | false => exact Or.inl (by simp [hts, hsd])
          | true =>
            cases htc2 : env.traceControl with
            | error e => exact Or.inl (by simp [hts, hsd])
            | ok tr2 =>
              cases hc2 : (traceSuccess tr2
                  && stateDiffContainsAnyAddr tr2 opts.check_addresses) with
              | true => exact Or.inl (by simp [hts, hsd, hc2])
              | false =>
                exact Or.inr ⟨tr, tr2, rfl, rfl, hts, hsd, hc2, by simp [hts, hsd, hc2]⟩

/-- C1: the initializer-scan deployment handler adds to `known` only when
the candidate trace's stateDiff contains a check address (step 5) and the
control trace with selector `0x6fcb831b` does not pass the same check
(step 6); every evaluation in which either condition fails leaves `known`
unchanged. -/
theorem c1_initscan_add_requires_heuristic (env : InitRpcEnv) (opts : InitscanOptions)
    (contract calldata : List Nat) (st : InitscanState)
    (hchange : (tryInitWithCalldata env opts contract calldata st).1.known ≠ st.known) :
    ∃ tr tr2, env.traceCandidate = .ok tr ∧ env.traceControl = .ok tr2 ∧
      stateDiffContainsAnyAddr tr opts.check_addresses = true ∧
      (traceSuccess tr2 && stateDiffContainsAnyAddr tr2 opts.check_addresses) = false := by
  rcases tryInit_cases env opts contract calldata st with h | ⟨tr, tr2, h1, h2, _, h4, h5, _⟩
  · exact absurd (congrArg InitscanState.known h) hchange
  · exact ⟨tr, tr2, h1, h2, h4, h5⟩

/-- Witness for C1: a concrete run in which `known` does change, so the
extracted conditions hold. -/
theorem c1_initscan_add_requires_heuristic_witness :
    ∃ tr tr2,
      (⟨.ok true, .ok ⟨[], "xxaa"⟩, .ok ⟨[], ""⟩, true⟩ : InitRpcEnv).traceCandidate
        = .ok tr ∧
      (⟨.ok true, .ok ⟨[], "xxaa"⟩, .ok ⟨[], ""⟩, true⟩ : InitRpcEnv).traceControl
        = .ok tr2 ∧
      stateDiffContainsAnyAddr tr
        (⟨[[170]], none, some "known.json"⟩ : InitscanOptions).check_addresses = true ∧
      (traceSuccess tr2 && stateDiffContainsAnyAddr tr2
        (⟨[[170]], none, some "known.json"⟩ : InitscanOptions).check_addresses) = false :=
  c1_initscan_add_requires_heuristic
    ⟨.ok true, .ok ⟨[], "xxaa"⟩, .ok ⟨[], ""⟩, true⟩
    ⟨[[170]], none, some "known.json"⟩ [1] [2] ⟨[], none⟩ (by decide)

/-- C10: with no persistence path configured, `add_known_and_save` is a
no-op on both the in-memory list and the disk, and the whole deployment
evaluation leaves the analyzer state untouched. -/
theorem c10_no_filepath_never_persists (env : InitRpcEnv) (opts : InitscanOptions)
    (hpath : opts.initializable_contracts_filepath = none)
    (contract calldata : List Nat) (saveOk : Bool) (st : InitscanState) :
    addKnownAndSave opts contract calldata saveOk st = (st, .ok ()) ∧
    (tryInitWithCalldata env opts contract calldata st).1 = st := by
  have hadd : ∀ (so : Bool) (st' : InitscanState),
      addKnownAndSave opts contract calldata so st' = (st', .ok ()) := by
    intro so st'
    unfold addKnownAndSave
    rw [hpath]
  refine ⟨hadd _ _, ?_⟩
  rcases tryInit_cases env opts contract calldata st with h | ⟨_, _, _, _, _, _, _, h⟩
  · exact h
  · rw [h, hadd]

/-- Witness for C10 at a concrete pathless configuration. -/
theorem c10_no_filepath_never_persists_witness :
    addKnownAndSave ⟨[[170]], none, none⟩ [1] [2] true ⟨[], none⟩
      = (⟨[], none⟩, .ok ()) ∧
    (tryInitWithCalldata ⟨.ok true, .ok ⟨[], "xxaa"⟩, .ok ⟨[], ""⟩, true⟩
      ⟨[[170]], none, none⟩ [1] [2] ⟨[], none⟩).1 = ⟨[], none⟩ :=
  c10_no_filepath_never_persists ⟨.ok true, .ok ⟨[], "xxaa"⟩, .ok ⟨[], ""⟩, true⟩
    ⟨[[170]], none, none⟩ rfl [1] [2] true ⟨[], none⟩

/-- C6 counterexample: `load_event_sigs` / `load_func_sigs` themselves
return an *error* for a missing file (`fs::read_to_string` fails and `?`
propagates), not an empty map. -/
theorem c6_load_missing_file_counterexample :
    loadEventSigs (fun _ => .ok []) (fun _ => none) "./data/event_sigs.json"
      = .error "reading event_sigs.json" ∧
    loadFuncSigs (fun _ => .ok []) (fun _ => none) "./data/func_sigs.json"
      = .error "reading func_sigs.json" ∧
    loadEventSigs (fun _ => .ok []) (fun _ => none) "./data/event_sigs.json"
      ≠ .ok [] :=
  ⟨rfl, rfl, fun h => Except.noConfusion h⟩

/-- C6 (amended): for a missing catalog file the *call sites*, which all use
`unwrap_or_default()`, obtain the empty signature map; the pipelines never
fail on a missing catalog even though the load functions themselves error. -/
theorem c6_missing_catalog_defaults_to_empty
    (parseE : String → Except String EventSigMap)
    (parseF : String → Except String FuncSigMap)
    (fs : String → Option String) (pe pf : String)
    (he : fs pe = none) (hf : fs pf = none) :
    loadEventSigsOrDefault parseE fs pe = [] ∧ loadFuncSigsOrDefault parseF fs pf = [] := by
  unfold loadEventSigsOrDefault loadFuncSigsOrDefault loadEventSigs loadFuncSigs
  rw [he, hf]
  exact ⟨rfl, rfl⟩

/-- Witness for C6 at a concrete empty file system. -/
theorem c6_missing_catalog_defaults_to_empty_witness :
    loadEventSigsOrDefault (fun _ => .ok []) (fun _ => none) "./data/event_sigs.json" = [] ∧
    loadFuncSigsOrDefault (fun _ => .ok []) (fun _ => none) "./data/func_sigs.json" = [] :=
  c6_missing_catalog_defaults_to_empty _ _ _ _ _ rfl rfl

/-- One doubling step of the capped backoff. -/
theorem nextBackoff_pow (k : Nat) :
    nextBackoff (min (2 ^ k) MAX_BACKOFF) = min (2 ^ (k + 1)) MAX_BACKOFF := by
  unfold nextBackoff MAX_BACKOFF
  rcases Nat.le_total (2 ^ k) 30 with h | h
  · rw [Nat.min_eq_left h, pow_succ]
  · rw [Nat.min_eq_right h,
      Nat.min_eq_right (le_trans h (Nat.pow_le_pow_right (by omega) (by omega)))]
    omega

/-- The sleep sequence of the resubscribe loop depends only on the starting
backoff: starting from `min (2^k) 30` the n-th sleep is `min (2^(k+n)) 30`. -/
theorem eventsLoopSleeps_backoff (sessions : List (List (Option Nat) × Nat)) :
    ∀ (k l : Nat),
      eventsLoopSleeps ⟨l, min (2 ^ k) MAX_BACKOFF⟩ sessions
        = (List.range sessions.length).map (fun n => min (2 ^ (k + n)) MAX_BACKOFF) := by
  induction sessions with
  | nil => intro k l; rfl
  | cons s rest ih =>
    intro k l
    have step : eventsLoopSleeps ⟨l, min (2 ^ k) MAX_BACKOFF⟩ (s :: rest)
        = min (2 ^ k) MAX_BACKOFF ::
          eventsLoopSleeps (eventsLoopIter ⟨l, min (2 ^ k) MAX_BACKOFF⟩ s).2 rest := rfl
    have hsnd : (eventsLoopIter ⟨l, min (2 ^ k) MAX_BACKOFF⟩ s).2
        = ⟨(eventsLoopIter ⟨l, min (2 ^ k) MAX_BACKOFF⟩ s).2.lastSeen,
           min (2 ^ (k + 1)) MAX_BACKOFF⟩ := by
      rw [← nextBackoff_pow]
      rfl
    rw [step, hsnd, ih (k + 1)]
    rw [List.length_cons, List.range_succ_eq_map, List.map_cons, List.map_map]
    refine congrArg₂ _ (by rw [Nat.add_zero]) ?_
    refine List.map_congr_left ?_
    intro n _
    simp only [Function.comp_apply]
    rw [Nat.succ_eq_add_one, Nat.add_comm n 1, ← Nat.add_assoc]

/-- C5 counterexample: inside the loop every resubscription is successful
(a failed `subscribe_logs` exits `run_events_subscribe` through `?` and
falls back to polling), yet the sleep after the first successful
resubscription is 2 s, not the 1 s the reset-on-success claim demands: the
code never resets `backoff`. -/
theorem c5_backoff_never_reset_counterexample :
    eventsLoopSleeps ⟨0, 1⟩ [([], 0), ([], 0)] = [1, 2] ∧ (2 : Nat) ≠ 1 :=
  ⟨rfl, by decide⟩

/-- C5 (amended): the sleeps before successive resubscriptions follow
`min (2^n) 30` — 1, 2, 4, 8, 16, 30, 30, … — independent of what the
sessions deliver; the backoff is never reset inside the loop (a failed
subscribe call instead exits to the polling fallback). -/
theorem c5_backoff_sequence (l : Nat) (sessions : List (List (Option Nat) × Nat)) :
    eventsLoopSleeps ⟨l, 1⟩ sessions
      = (List.range sessions.length).map (fun n => min (2 ^ n) MAX_BACKOFF) := by
  have h := eventsLoopSleeps_backoff sessions 0 l
  simpa using h

/-- C7 counterexample: a nested dynamic array (`string[]`) with element
count 0 decodes to the *empty array value*, not to
`Unsupported("nested dynamic array")` — the Rust loop body that detects the
nested dynamic base never runs for a zero count. -/
theorem c7_nested_zero_count_counterexample :
    decodeDynamic (List.replicate 32 0) 0 "string[]" = .ok (some (.array [])) ∧
    (Except.ok (some (DecodedValue.array [])) : Except Unit (Option DecodedValue))
      ≠ .ok (some (.unsupported "nested dynamic array")) :=
  ⟨rfl, by simp⟩

/-- C7 (amended): for a `T[]` parameter with dynamic base type whose count
word is in bounds and fits `usize`: `Vec::with_capacity(count)` runs *before*
the element loop and panics with a capacity overflow whenever
`count * size_of::<DecodedValue>()` exceeds `isize::MAX` (fourth conjunct).
Below that threshold: a zero count yields the empty `Array` value; a positive
count whose first element slot lies within `data` yields exactly
`Unsupported("nested dynamic array")`; a positive count whose first element
slot is out of bounds fails the whole dynamic decode (`none`, which the event
decoder surfaces as `Unsupported("dynamic decode failed")`). -/
theorem c7_nested_dynamic_array_cases (data : List Nat) (offset : Nat)
    (elemType base : String)
    (hstrip : stripArraySuffix elemType = some base)
    (hdyn : isDynamicType base = true)
    (hoff : offset + 32 ≤ data.length)
    (hlen : data.length + 64 < usizeBound) :
    (wordValue (slice data offset 32) = 0 →
      decodeDynamic data offset elemType = .ok (some (.array []))) ∧
    (0 < wordValue (slice data offset 32) →
      wordValue (slice data offset 32) < usizeBound →
      wordValue (slice data offset 32) * sizeOfDecodedValue ≤ isizeMax →
      offset + 64 ≤ data.length →
      decodeDynamic data offset elemType = .ok (some (.unsupported "nested dynamic array"))) ∧
    (0 < wordValue (slice data offset 32) →
      wordValue (slice data offset 32) < usizeBound →
      wordValue (slice data offset 32) * sizeOfDecodedValue ≤ isizeMax →
      data.length < offset + 64 →
      decodeDynamic data offset elemType = .ok none) ∧
    (wordValue (slice data offset 32) < usizeBound →
      isizeMax < wordValue (slice data offset 32) * sizeOfDecodedValue →
      decodeDynamic data offset elemType = .error ()) := by
  have hends : strEndsWith elemType "[]" = true := by
    by_contra hne
    rw [Bool.not_eq_true] at hne
    unfold stripArraySuffix at hstrip
    rw [hne] at hstrip
    exact Option.noConfusion hstrip
  have hnsb : ¬ (elemType = "string" ∨ elemType = "bytes") := by
    rintro (h | h)
    · rw [h] at hends; exact absurd hends (by decide)
    · rw [h] at hends; exact absurd hends (by decide)
  have hu32 : uadd offset 32 = offset + 32 := Nat.mod_eq_of_lt (by omega)
  have hu64 : uadd (offset + 32) 32 = offset + 64 := by
    unfold uadd; rw [Nat.mod_eq_of_lt (by omega)]
  have hfirst : uadd (offset + 32) (umul 0 32) = offset + 32 := by
    unfold uadd umul
    rw [Nat.zero_mul, Nat.zero_mod, Nat.add_zero, Nat.mod_eq_of_lt (by omega)]
  have hmain : ∀ count, count < usizeBound →
      wordValue (slice data offset 32) = count →
      decodeDynamic data offset elemType
        = if count * sizeOfDecodedValue > isizeMax then .error ()
          else decodeArrayElems data base (offset + 32) 0 count [] := by
    intro count hcb hcv
    unfold decodeDynamic
    rw [hu32, if_neg (by omega), if_neg hnsb, hstrip]
    simp only
    rw [if_neg (by omega), hcv]
    unfold toUsize
    rw [if_pos hcb]
  refine ⟨?_, ?_, ?_, ?_⟩
  · intro h0
    rw [hmain 0 (by unfold usizeBound; omega) h0]
    rw [if_neg (by simp [sizeOfDecodedValue, isizeMax])]
    rfl
  · intro hpos hcb hcap hin
    rw [hmain _ hcb rfl]
    rw [if_neg (Nat.not_lt.mpr hcap)]
    rcases Nat.exists_eq_succ_of_ne_zero (Nat.pos_iff_ne_zero.mp hpos) with ⟨c, hc⟩
    rw [hc]
    unfold decodeArrayElems
    simp only [hfirst, hu64]
    rw [if_neg (by omega), if_pos hdyn]
  · intro hpos hcb hcap hout
    rw [hmain _ hcb rfl]
    rw [if_neg (Nat.not_lt.mpr hcap)]
    rcases Nat.exists_eq_succ_of_ne_zero (Nat.pos_iff_ne_zero.mp hpos) with ⟨c, hc⟩
    rw [hc]
    unfold decodeArrayElems
    simp only [hfirst, hu64]
    rw [if_pos (by omega)]
  · intro hcb hcap
    rw [hmain _ hcb rfl]
    rw [if_pos hcap]

/-- Witness for C7: `bytes[]` with count word 1 and the element slot in
bounds decodes to `Unsupported("nested dynamic array")` (second conjunct);
the zero-count, out-of-bounds and capacity-overflow conclusions are
available likewise. -/
theorem c7_nested_dynamic_array_cases_witness :
    (wordValue (slice ((List.replicate 31 0 ++ [1]) ++ List.replicate 32 0) 0 32) = 0 →
      decodeDynamic ((List.replicate 31 0 ++ [1]) ++ List.replicate 32 0) 0 "bytes[]"
        = .ok (some (.array []))) ∧
    (0 < wordValue (slice ((List.replicate 31 0 ++ [1]) ++ List.replicate 32 0) 0 32) →
      wordValue (slice ((List.replicate 31 0 ++ [1]) ++ List.replicate 32 0) 0 32) < usizeBound →
      wordValue (slice ((List.replicate 31 0 ++ [1]) ++ List.replicate 32 0) 0 32)
        * sizeOfDecodedValue ≤ isizeMax →
      0 + 64 ≤ ((List.replicate 31 0 ++ [1]) ++ List.replicate 32 0 : List Nat).length →
      decodeDynamic ((List.replicate 31 0 ++ [1]) ++ List.replicate 32 0) 0 "bytes[]"
        = .ok (some (.unsupported "nested dynamic array"))) ∧
    (0 < wordValue (slice ((List.replicate 31 0 ++ [1]) ++ List.replicate 32 0) 0 32) →
      wordValue (slice ((List.replicate 31 0 ++ [1]) ++ List.replicate 32 0) 0 32) < usizeBound →
      wordValue (slice ((List.replicate 31 0 ++ [1]) ++ List.replicate 32 0) 0 32)
        * sizeOfDecodedValue ≤ isizeMax →
      ((List.replicate 31 0 ++ [1]) ++ List.replicate 32 0 : List Nat).length < 0 + 64 →
      decodeDynamic ((List.replicate 31 0 ++ [1]) ++ List.replicate 32 0) 0 "bytes[]"
        = .ok none) ∧
    (wordValue (slice ((List.replicate 31 0 ++ [1]) ++ List.replicate 32 0) 0 32) < usizeBound →
      isizeMax < wordValue (slice ((List.replicate 31 0 ++ [1]) ++ List.replicate 32 0) 0 32)
        * sizeOfDecodedValue →
      decodeDynamic ((List.replicate 31 0 ++ [1]) ++ List.replicate 32 0) 0 "bytes[]"
        = .error ()) :=
  c7_nested_dynamic_array_cases ((List.replicate 31 0 ++ [1]) ++ List.replicate 32 0) 0
    "bytes[]" "bytes" (by decide) (by decide) (by decide) (by decide)

/-- C2 (code bug): decoding an event whose single non-indexed `bytes`
parameter has head word `2^64` — an offset word exceeding the data bounds
and `usize` — panics inside ruint's `U256::to::<usize>`
(`.expect("Uint conversion error")`) instead of yielding the
`Unsupported("dynamic decode failed")` field the claim promises.  The second
conjunct shows the intended behaviour on an out-of-bounds offset that still
fits `usize`: the event survives with the `Unsupported` field. -/
theorem c2_decode_event_panic_on_unrepresentable_offset :
    tryDecodeEvent "0xdead" [[0]] (List.replicate 23 0 ++ 1 :: List.replicate 8 0)
      [("0xdead", ⟨⟨[⟨"d", "bytes", false⟩]⟩, "Ev", "Ev(bytes)"⟩)]
      = .error () ∧
    tryDecodeEvent "0xdead" [[0]] (List.replicate 31 0 ++ [64])
      [("0xdead", ⟨⟨[⟨"d", "bytes", false⟩]⟩, "Ev", "Ev(bytes)"⟩)]
      = .ok (some ("Ev", [⟨"d", .unsupported "dynamic decode failed", false⟩])) :=
  ⟨rfl, rfl⟩

/-- C9 counterexample: in the real-time block pipeline a transaction with a
3-byte input is fetched, but its receipt is *not* fetched — the
`get_transaction_receipt` call sits inside the `input.len() >= 4` guard —
contradicting the claim's "even though its transaction and receipt were
fetched"; no `TxRecord` is dispatched either. -/
theorem c9_realtime_short_input_counterexample :
    realtimeHandleLogTx [] (fun _ => .ok (some ⟨5, [1], some [2], [0, 1, 2], 21000, none⟩))
        (fun _ => none) 5
      = .ok ([RpcCall.getTx 5], none) ∧
    RpcCall.getReceipt 5 ∉ [RpcCall.getTx 5] :=
  ⟨rfl, by decide⟩

/-- C9 (amended): in both the cache dispatch path and the real-time block
pipeline a `TxRecord` is dispatched only when the input holds at least a
4-byte selector.  For shorter input `on_tx` is never invoked; the cache
path nevertheless fetched both transaction and receipt (its fetch is
input-independent), while the real-time path fetches only the transaction
and skips the receipt fetch together with the dispatch. -/
theorem c9_short_input_no_dispatch
    (funcs : FuncSigMap) (tx : RtTx) (receipt : Option TxReceipt)
    (envTx : Nat → Except String (Option RtTx)) (envReceipt : Nat → Option TxReceipt)
    (txh : Nat) (tx2 : RtTx)
    (hshort : tx.input.length < 4)
    (henv : envTx txh = .ok (some tx2)) (hshort2 : tx2.input.length < 4) :
    processTransaction funcs tx receipt = .ok none ∧
    realtimeHandleLogTx funcs envTx envReceipt txh = .ok ([.getTx txh], none) ∧
    (∀ h trx, envTx h = .ok (some trx) →
      fetchTransactions envTx envReceipt [h] [] []
        = .ok ([(h, ⟨trx, envReceipt h⟩)], [.getTx h, .getReceipt h])) := by
  refine ⟨?_, ?_, ?_⟩
  · unfold processTransaction
    rw [if_neg (by omega)]
  · unfold realtimeHandleLogTx
    rw [henv]
    simp only
    rw [if_neg (by omega)]
  · intro h trx he
    unfold fetchTransactions
    rw [he]
    simp only [List.any_nil, Bool.false_eq_true, if_false]
    rfl

/-- Witness for C9 at a concrete 3-byte-input transaction. -/
theorem c9_short_input_no_dispatch_witness :
    processTransaction [] ⟨5, [1], some [2], [0, 1, 2], 21000, none⟩ none = .ok none ∧
    realtimeHandleLogTx [] (fun _ => .ok (some ⟨5, [1], some [2], [0, 1, 2], 21000, none⟩))
        (fun _ => none) 5
      = .ok ([.getTx 5], none) ∧
    (∀ h trx,
      (fun _ : Nat => (Except.ok (some (⟨5, [1], some [2], [0, 1, 2], 21000, none⟩ : RtTx)) :
          Except String (Option RtTx))) h = Except.ok (some trx) →
      fetchTransactions (fun _ => .ok (some ⟨5, [1], some [2], [0, 1, 2], 21000, none⟩))
          (fun _ => none) [h] [] []
        = .ok ([(h, ⟨trx, (fun _ : Nat => (none : Option TxReceipt)) h⟩)],
               [.getTx h, .getReceipt h])) :=
  c9_short_input_no_dispatch [] ⟨5, [1], some [2], [0, 1, 2], 21000, none⟩ none
    (fun _ => .ok (some ⟨5, [1], some [2], [0, 1, 2], 21000, none⟩)) (fun _ => none) 5
    ⟨5, [1], some [2], [0, 1, 2], 21000, none⟩ (by decide) rfl (by decide)

/-- Unfolding `expectedCalls` over a cons. -/
theorem expectedCalls_cons (envTx : Nat → Except String (Option RtTx)) (h : Nat)
    (rest : List Nat) :
    expectedCalls envTx (h :: rest)
      = (match envTx h with
         | .ok (some _) => [RpcCall.getTx h, RpcCall.getReceipt h]
         | _ => [RpcCall.getTx h]) ++ expectedCalls envTx rest := by
  unfold expectedCalls
  rw [List.flatMap_cons]

/-- On fresh, duplicate-free hashes with no transport error,
`fetch_transactions` succeeds and issues exactly the canonical call trace,
extending the cache with exactly the found transactions. -/
theorem fetchTransactions_spec (envTx : Nat → Except String (Option RtTx))
    (envReceipt : Nat → Option TxReceipt) :
    ∀ (hs : List Nat) (cache : List (Nat × CachedTxData)) (calls : List RpcCall),
      hs.Nodup →
      (∀ h ∈ hs, cache.any (fun p => p.1 == h) = false) →
      (∀ h ∈ hs, ∃ v, envTx h = .ok v) →
      fetchTransactions envTx envReceipt hs cache calls
        = .ok (cache ++ fetchedEntries envTx envReceipt hs,
               calls ++ expectedCalls envTx hs) := by
  intro hs
  induction hs with
  | nil =>
    intro cache calls _ _ _
    simp [fetchTransactions, fetchedEntries, expectedCalls]
  | cons h rest ih =>
    intro cache calls hnd hfresh hok
    have hnotc : cache.any (fun p => p.1 == h) = false := hfresh h (by simp)
    rcases hok h (by simp) with ⟨v, hv⟩
    unfold fetchTransactions
    rw [hnotc]
    simp only [Bool.false_eq_true, if_false]
    rw [hv]
    cases v with
    | none =>
      rw [ih _ _ (List.Nodup.of_cons hnd)
        (fun x hx => hfresh x (List.mem_cons_of_mem _ hx))
        (fun x hx => hok x (List.mem_cons_of_mem _ hx))]
      rw [expectedCalls_cons, hv]
      unfold fetchedEntries
      rw [List.filterMap_cons, hv]
      simp [List.append_assoc]
    | some tx =>
      have hfresh' : ∀ x ∈ rest,
          (cache ++ [(h, (⟨tx, envReceipt h⟩ : CachedTxData))]).any
            (fun p => p.1 == x) = false := by
        intro x hx
        have hne : h ≠ x := fun e => (List.nodup_cons.mp hnd).1 (e ▸ hx)
        rw [List.any_append, hfresh x (List.mem_cons_of_mem _ hx)]
        simp [hne]
      show fetchTransactions envTx envReceipt rest
          (cache ++ [(h, (⟨tx, envReceipt h⟩ : CachedTxData))])
          (calls ++ [RpcCall.getTx h, RpcCall.getReceipt h])
        = _
      rw [ih _ _ (List.Nodup.of_cons hnd) hfresh'
        (fun x hx => hok x (List.mem_cons_of_mem _ hx))]
      rw [expectedCalls_cons, hv]
      unfold fetchedEntries
      rw [List.filterMap_cons, hv]
      simp [List.append_assoc]

/-- The canonical trace holds exactly one `getTx` per hash. -/
theorem expectedCalls_countP_getTx (envTx : Nat → Except String (Option RtTx)) :
    ∀ hs : List Nat, (expectedCalls envTx hs).countP isGetTx = hs.length := by
  intro hs
  induction hs with
  | nil => rfl
  | cons h rest ih =>
    rw [expectedCalls_cons, List.countP_append, ih]
    cases henv : envTx h with
    | error e => simp [isGetTx, List.countP_cons]; omega
    | ok v =>
      cases v with
      | none => simp [isGetTx, List.countP_cons]; omega
      | some tx => simp [isGetTx, List.countP_cons]; omega

/-- The canonical trace holds at most one `getReceipt` per hash. -/
theorem expectedCalls_countP_getReceipt (envTx : Nat → Except String (Option RtTx)) :
    ∀ hs : List Nat, (expectedCalls envTx hs).countP isGetReceipt ≤ hs.length := by
  intro hs
  induction hs with
  | nil => exact Nat.le_refl 0
  | cons h rest ih =>
    rw [expectedCalls_cons, List.countP_append]
    cases henv : envTx h with
    | error e => simp only [List.length_cons]; simp [isGetReceipt, List.countP_cons]; omega
    | ok v =>
      cases v with
      | none => simp only [List.length_cons]; simp [isGetReceipt, List.countP_cons]; omega
      | some tx => simp only [List.length_cons]; simp [isGetReceipt, List.countP_cons]; omega

/-- A hash outside the batch gets no `getTx` call. -/
theorem expectedCalls_count_getTx_zero (envTx : Nat → Except String (Option RtTx)) :
    ∀ (hs : List Nat) (h : Nat), h ∉ hs →
      (expectedCalls envTx hs).count (RpcCall.getTx h) = 0 := by
  intro hs
  induction hs with
  | nil => intro h _; rfl
  | cons h' rest ih =>
    intro h hmem
    have hne : RpcCall.getTx h' ≠ RpcCall.getTx h := by
      intro e
      exact hmem (by injection e with e'; exact e' ▸ List.mem_cons_self h' rest)
    rw [expectedCalls_cons, List.count_append, ih h (fun hx => hmem (List.mem_cons_of_mem _ hx))]
    cases henv : envTx h' with
    | error e => simp [List.count_cons, hne]
    | ok v =>
      cases v with
      | none => simp [List.count_cons, hne]
      | some tx => simp [List.count_cons, hne]

/-- A hash outside the batch gets no `getReceipt` call. -/
theorem expectedCalls_count_getReceipt_zero (envTx : Nat → Except String (Option RtTx)) :
    ∀ (hs : List Nat) (h : Nat), h ∉ hs →
      (expectedCalls envTx hs).count (RpcCall.getReceipt h) = 0 := by
  intro hs
  induction hs with
  | nil => intro h _; rfl
  | cons h' rest ih =>
    intro h hmem
    have hne : RpcCall.getReceipt h' ≠ RpcCall.getReceipt h := by
      intro e
      exact hmem (by injection e with e'; exact e' ▸ List.mem_cons_self h' rest)
    rw [expectedCalls_cons, List.count_append, ih h (fun hx => hmem (List.mem_cons_of_mem _ hx))]
    cases henv : envTx h' with
    | error e => simp [List.count_cons, hne]
    | ok v =>
      cases v with
      | none => simp [List.count_cons, hne]
      | some tx => simp [List.count_cons, hne]

/-- Over duplicate-free hashes each hash receives at most one `getTx` and at
most one `getReceipt`. -/
theorem expectedCalls_count_le_one (envTx : Nat → Except String (Option RtTx)) :
    ∀ hs : List Nat, hs.Nodup → ∀ h : Nat,
      (expectedCalls envTx hs).count (RpcCall.getTx h) ≤ 1 ∧
      (expectedCalls envTx hs).count (RpcCall.getReceipt h) ≤ 1 := by
  intro hs
  induction hs with
  | nil => intro _ h; exact ⟨Nat.zero_le 1, Nat.zero_le 1⟩
  | cons h' rest ih =>
    intro hnd h
    rcases List.nodup_cons.mp hnd with ⟨hnotm, hnd'⟩
    rcases ih hnd' h with ⟨ihT, ihR⟩
    rw [expectedCalls_cons, List.count_append, List.count_append]
    by_cases hhe : h = h'
    · subst hhe
      rw [expectedCalls_count_getTx_zero envTx rest h hnotm,
        expectedCalls_count_getReceipt_zero envTx rest h hnotm]
      cases henv : envTx h with
      | error e => constructor <;> simp [List.count_cons]
      | ok v =>
        cases v with
        | none => constructor <;> simp [List.count_cons]
        | some tx => constructor <;> simp [List.count_cons]
    · have hneT : RpcCall.getTx h' ≠ RpcCall.getTx h := by
        intro e; injection e with e'; exact hhe e'.symm
      have hneR : RpcCall.getReceipt h' ≠ RpcCall.getReceipt h := by
        intro e; injection e with e'; exact hhe e'.symm
      cases henv : envTx h' with
      | error e => constructor <;> simp [List.count_cons, hneT, hneR] <;> omega
      | ok v =>
        cases v with
        | none => constructor <;> simp [List.count_cons, hneT, hneR] <;> omega
        | some tx => constructor <;> simp [List.count_cons, hneT, hneR] <;> omega

/-- A `getReceipt` appears in the canonical trace only for a hash whose
transaction was actually retrieved. -/
theorem expectedCalls_getReceipt_mem (envTx : Nat → Except String (Option RtTx)) :
    ∀ (hs : List Nat) (h : Nat), RpcCall.getReceipt h ∈ expectedCalls envTx hs →
      ∃ tx, envTx h = .ok (some tx) := by
  intro hs
  induction hs with
  | nil => intro h hmem; exact absurd hmem (List.not_mem_nil _)
  | cons h' rest ih =>
    intro h hmem
    rw [expectedCalls_cons] at hmem
    rcases List.mem_append.mp hmem with hb | hr
    · cases henv : envTx h' with
      | error e =>
        rw [henv] at hb
        simp only [List.mem_singleton] at hb
        exact absurd hb (by intro e'; exact RpcCall.noConfusion e')
      | ok v =>
        cases v with
        | none =>
          rw [henv] at hb
          simp only [List.mem_singleton] at hb
          exact absurd hb (by intro e'; exact RpcCall.noConfusion e')
        | some tx =>
          rw [henv] at hb
          rcases List.mem_cons.mp hb with he | he
          · exact absurd he (by intro e'; exact RpcCall.noConfusion e')
          · have he' := List.mem_singleton.mp he
            injection he' with hh
            exact ⟨tx, by rw [hh]; exact henv⟩
    · exact ih h hr

/-- C3: for a batch referencing `K` unique transaction hashes (and no
transport error, which would abort the batch through `?`), the cache's
batch fetch issues exactly `K` `get_transaction` calls and at most `K`
`get_receipt` calls — at most one of each per unique hash — and a
`get_receipt` only for a hash whose transaction was actually retrieved. -/
theorem c3_fetch_transactions_coalesced (envTx : Nat → Except String (Option RtTx))
    (envReceipt : Nat → Option TxReceipt) (hashes : List Nat)
    (hnd : hashes.Nodup) (hok : ∀ h ∈ hashes, ∃ v, envTx h = .ok v) :
    ∃ cache calls,
      fetchTransactions envTx envReceipt hashes [] [] = .ok (cache, calls) ∧
      calls.countP isGetTx = hashes.length ∧
      calls.countP isGetReceipt ≤ hashes.length ∧
      (∀ h, calls.count (RpcCall.getTx h) ≤ 1) ∧
      (∀ h, calls.count (RpcCall.getReceipt h) ≤ 1) ∧
      (∀ h, RpcCall.getReceipt h ∈ calls → ∃ tx, envTx h = .ok (some tx)) := by
  refine ⟨fetchedEntries envTx envReceipt hashes, expectedCalls envTx hashes, ?_,
    expectedCalls_countP_getTx envTx hashes,
    expectedCalls_countP_getReceipt envTx hashes,
    fun h => (expectedCalls_count_le_one envTx hashes hnd h).1,
    fun h => (expectedCalls_count_le_one envTx hashes hnd h).2,
    fun h => expectedCalls_getReceipt_mem envTx hashes h⟩
  have hspec := fetchTransactions_spec envTx envReceipt hashes [] []
    hnd (fun h _ => rfl) hok
  simpa using hspec

/-- Witness for C3 on a concrete two-hash batch. -/
theorem c3_fetch_transactions_coalesced_witness :
    ∃ cache calls,
      fetchTransactions (fun h => .ok (some ⟨h, [1], none, [], 0, none⟩))
          (fun _ => none) [5, 7] [] []
        = .ok (cache, calls) ∧
      calls.countP isGetTx = ([5, 7] : List Nat).length ∧
      calls.countP isGetReceipt ≤ ([5, 7] : List Nat).length ∧
      (∀ h, calls.count (RpcCall.getTx h) ≤ 1) ∧
      (∀ h, calls.count (RpcCall.getReceipt h) ≤ 1) ∧
      (∀ h, RpcCall.getReceipt h ∈ calls →
        ∃ tx, (fun h => (Except.ok (some (⟨h, [1], none, [], 0, none⟩ : RtTx)) :
          Except String (Option RtTx))) h = .ok (some tx)) :=
  c3_fetch_transactions_coalesced (fun h => .ok (some ⟨h, [1], none, [], 0, none⟩))
    (fun _ => none) [5, 7] (by decide) (fun h _ => ⟨some ⟨h, [1], none, [], 0, none⟩, rfl⟩)

/-- Unfolding `acqCountIn` over a cons. -/
theorem acqCountIn_cons (e : ThrEvent) (tr : List ThrEvent) (lo hi : Nat) :
    acqCountIn (e :: tr) lo hi
      = (if e.kind == ThrKind.acq && decide (lo ≤ e.time) && decide (e.time < hi)
         then 1 else 0) + acqCountIn tr lo hi := by
  unfold acqCountIn
  rw [List.filter_cons]
  split
  · rw [List.length_cons]; omega
  · omega

/-- No acquire is counted in a window that ends before every event. -/
theorem acqCountIn_zero_of_ge : ∀ (tr : List ThrEvent) (lo hi : Nat),
    (∀ e ∈ tr, hi ≤ e.time) → acqCountIn tr lo hi = 0 := by
  intro tr lo hi
  induction tr with
  | nil => intro _; rfl
  | cons e rest ih =>
    intro h
    rw [acqCountIn_cons]
    have he := h e (List.mem_cons_self _ _)
    have hcond : (e.kind == ThrKind.acq && decide (lo ≤ e.time)
        && decide (e.time < hi)) = false := by
      simp [Nat.not_lt.mpr he]
    rw [hcond]
    simp only [Bool.false_eq_true, if_false, Nat.zero_add]
    exact ih (fun x hx => h x (List.mem_cons_of_mem _ hx))

/-- Once inside an aligned window (every event strictly after its start) no
tick can refill before the window ends, so the acquires completing in it are
bounded by the permits available on entry. -/
theorem throttle_window_after_start (cap : Nat) :
    ∀ (tr : List ThrEvent) (p k : Nat),
      Chrono tr → TicksAligned tr → (throttleRun cap tr p).isSome →
      (∀ e ∈ tr, 1000 * k < e.time) →
      acqCountIn tr (1000 * k) (1000 * (k + 1)) ≤ p := by
  intro tr
  induction tr with
  | nil => intro p k _ _ _ _; exact Nat.zero_le p
  | cons e rest ih =>
    intro p k hch hta hrun hgt
    rcases List.pairwise_cons.mp hch with ⟨hlt, hch'⟩
    have hta' : TicksAligned rest := fun x hx hk => hta x (List.mem_cons_of_mem _ hx) hk
    have hgt0 : 1000 * k < e.time := hgt e (List.mem_cons_self _ _)
    cases hk : e.kind with
    | tick =>
      have halign : e.time % 1000 = 0 := hta e (List.mem_cons_self _ _) hk
      have hge : 1000 * (k + 1) ≤ e.time := by
        rcases Nat.dvd_of_mod_eq_zero halign with ⟨m, hm⟩
        omega
      rw [acqCountIn_cons]
      have hcond : (e.kind == ThrKind.acq && decide (1000 * k ≤ e.time)
          && decide (e.time < 1000 * (k + 1))) = false := by
        simp [hk]
      rw [hcond]
      simp only [Bool.false_eq_true, if_false, Nat.zero_add]
      rw [acqCountIn_zero_of_ge rest _ _
        (fun x hx => le_trans hge (Nat.le_of_lt (hlt x hx)))]
      exact Nat.zero_le p
    | acq =>
      cases p with
      | zero =>
        exfalso
        unfold throttleRun at hrun
        rw [hk] at hrun
        simp at hrun
      | succ q =>
        have hrun' : (throttleRun cap rest q).isSome := by
          unfold throttleRun at hrun
          rw [hk] at hrun
          simpa using hrun
        by_cases hw : e.time < 1000 * (k + 1)
        · rw [acqCountIn_cons]
          have hcond : (e.kind == ThrKind.acq && decide (1000 * k ≤ e.time)
              && decide (e.time < 1000 * (k + 1))) = true := by
            simp [hk, hw, Nat.le_of_lt hgt0]
          rw [hcond, if_pos rfl]
          have hcnt := ih q k hch' hta' hrun'
            (fun x hx => hgt x (List.mem_cons_of_mem _ hx))
          omega
        · rw [acqCountIn_cons]
          have hcond : (e.kind == ThrKind.acq && decide (1000 * k ≤ e.time)
              && decide (e.time < 1000 * (k + 1))) = false := by
            simp [hw]
          rw [hcond]
          simp only [Bool.false_eq_true, if_false, Nat.zero_add]
          rw [acqCountIn_zero_of_ge rest _ _
            (fun x hx => le_trans (Nat.not_lt.mp hw) (Nat.le_of_lt (hlt x hx)))]
          exact Nat.zero_le _

/-- Over any admissible trace starting with at most `cap` permits, at most
`cap` acquires complete inside any refill-aligned one-second window. -/
theorem throttleRun_window_bound (cap : Nat) :
    ∀ (tr : List ThrEvent) (p : Nat),
      Chrono tr → TicksAligned tr → (throttleRun cap tr p).isSome → p ≤ cap →
      ∀ k, acqCountIn tr (1000 * k) (1000 * (k + 1)) ≤ cap := by
  intro tr
  induction tr with
  | nil => intro p _ _ _ _ k; exact Nat.zero_le cap
  | cons e rest ih =>
    intro p hch hta hrun hpc k
    rcases List.pairwise_cons.mp hch with ⟨hlt, hch'⟩
    have hta' : TicksAligned rest := fun x hx hk => hta x (List.mem_cons_of_mem _ hx) hk
    cases hk : e.kind with
    | tick =>
      have hrun' : (throttleRun cap rest (if p < cap then cap else p)).isSome := by
        unfold throttleRun at hrun
        rw [hk] at hrun
        exact hrun
      have hp' : (if p < cap then cap else p) ≤ cap := by split <;> omega
      rw [acqCountIn_cons]
      have hcond : (e.kind == ThrKind.acq && decide (1000 * k ≤ e.time)
          && decide (e.time < 1000 * (k + 1))) = false := by
        simp [hk]
      rw [hcond]
      simp only [Bool.false_eq_true, if_false, Nat.zero_add]
      exact ih _ hch' hta' hrun' hp' k
    | acq =>
      cases p with
      | zero =>
        exfalso
        unfold throttleRun at hrun
        rw [hk] at hrun
        simp at hrun
      | succ q =>
        have hrun' : (throttleRun cap rest q).isSome := by
          unfold throttleRun at hrun
          rw [hk] at hrun
          simpa using hrun
        by_cases hw2 : e.time < 1000 * (k + 1)
        · by_cases hw1 : 1000 * k ≤ e.time
          · rw [acqCountIn_cons]
            have hcond : (e.kind == ThrKind.acq && decide (1000 * k ≤ e.time)
                && decide (e.time < 1000 * (k + 1))) = true := by
              simp [hk, hw1, hw2]
            rw [hcond, if_pos rfl]
            have hcnt := throttle_window_after_start cap rest q k hch' hta' hrun'
              (fun x hx => lt_of_le_of_lt hw1 (hlt x hx))
            omega
          · rw [acqCountIn_cons]
            have hcond : (e.kind == ThrKind.acq && decide (1000 * k ≤ e.time)
                && decide (e.time < 1000 * (k + 1))) = false := by
              simp [hw1]
            rw [hcond]
            simp only [Bool.false_eq_true, if_false, Nat.zero_add]
            exact ih q hch' hta' hrun' (by omega) k
        · rw [acqCountIn_cons]
          have hcond : (e.kind == ThrKind.acq && decide (1000 * k ≤ e.time)
              && decide (e.time < 1000 * (k + 1))) = false := by
            simp [hw2]
          rw [hcond]
          simp only [Bool.false_eq_true, if_false, Nat.zero_add]
          exact ih q hch' hta' hrun' (by omega) k

/-- C8 counterexample: with capacity 1, an acquire at t = 999 ms, the refill
tick at t = 1000 ms, and an acquire at t = 1001 ms form an admissible trace
in which *two* acquires complete inside the one-second window starting at
t = 999 ms — the sliding-window ("any alignment") bound of the claim fails. -/
theorem c8_sliding_window_counterexample :
    Admissible 1 [⟨999, .acq⟩, ⟨1000, .tick⟩, ⟨1001, .acq⟩] ∧
    acqCountIn [⟨999, .acq⟩, ⟨1000, .tick⟩, ⟨1001, .acq⟩] 999 (999 + 1000) = 2 ∧
    ¬ (acqCountIn [⟨999, .acq⟩, ⟨1000, .tick⟩, ⟨1001, .acq⟩] 999 (999 + 1000) ≤ 1) := by
  refine ⟨⟨?_, ?_, ?_⟩, rfl, by decide⟩
  · unfold Chrono
    decide
  · unfold TicksAligned
    decide
  · decide

/-- C8 (amended): the rate limiter allows at most `capacity` acquires to
complete within any *refill-tick-aligned* one-second window
`[1000k, 1000(k+1))`; the refill task tops permits up to capacity once per
second at the window boundaries. -/
theorem c8_throttle_aligned_window_bound (cap : Nat) (tr : List ThrEvent)
    (h : Admissible cap tr) (k : Nat) :
    acqCountIn tr (1000 * k) (1000 * (k + 1)) ≤ cap :=
  throttleRun_window_bound cap tr cap h.1 h.2.1 h.2.2 (Nat.le_refl cap) k

/-- Witness for C8 on the concrete three-event trace and window k = 1. -/
theorem c8_throttle_aligned_window_bound_witness :
    acqCountIn [⟨999, .acq⟩, ⟨1000, .tick⟩, ⟨1001, .acq⟩] (1000 * 1) (1000 * (1 + 1)) ≤ 1 :=
  c8_throttle_aligned_window_bound 1 [⟨999, .acq⟩, ⟨1000, .tick⟩, ⟨1001, .acq⟩]
    ⟨by unfold Chrono; decide, by unfold TicksAligned; decide, by decide⟩ 1

/-- A registered name has a dependency list. -/
theorem isRegistered_depsOf {r : Registry} {n : String}
    (h : isRegistered r n = true) : ∃ ds, depsOf r n = some ds := by
  unfold isRegistered at h
  rcases List.any_eq_true.mp h with ⟨p, hp, he⟩
  have hs : (r.deps.find? (fun p => p.1 == n)).isSome :=
    List.find?_isSome.mpr ⟨p, hp, he⟩
  rcases Option.isSome_iff_exists.mp hs with ⟨q, hq⟩
  exact ⟨q.2, by unfold depsOf; rw [hq]; rfl⟩

/-- A name with a dependency list is registered. -/
theorem depsOf_isRegistered {r : Registry} {n : String} {ds : List String}
    (h : depsOf r n = some ds) : isRegistered r n = true := by
  unfold depsOf at h
  cases hf : r.deps.find? (fun p => p.1 == n) with
  | none => rw [hf] at h; exact Option.noConfusion h
  | some q =>
    have hpq := List.find?_some hf
    exact List.any_eq_true.mpr ⟨q, List.mem_of_find?_eq_some hf, hpq⟩

/-- An unregistered name has no dependency list. -/
theorem depsOf_eq_none {r : Registry} {n : String}
    (h : isRegistered r n = false) : depsOf r n = none := by
  cases hd : depsOf r n with
  | none => rfl
  | some ds => rw [depsOf_isRegistered hd] at h; exact Bool.noConfusion h

/-- `indexOf` into an extended list agrees on old members. -/
theorem indexOf_append_left {x : String} {l : List String} (t : List String) (h : x ∈ l) :
    (l ++ t).indexOf x = l.indexOf x := by
  induction l with
  | nil => exact absurd h (List.not_mem_nil x)
  | cons a l ih =>
    by_cases hax : a = x
    · subst hax
      rw [List.cons_append, List.indexOf_cons_self, List.indexOf_cons_self]
    · rcases List.mem_cons.mp h with rfl | hmem
      · exact absurd rfl hax
      · rw [List.cons_append, List.indexOf_cons_ne _ hax, List.indexOf_cons_ne _ hax,
          ih hmem]

/-- `indexOf` of a freshly appended element is the old length. -/
theorem indexOf_append_self {x : String} {l : List String} (h : x ∉ l) :
    (l ++ [x]).indexOf x = l.length := by
  induction l with
  | nil => simp [List.indexOf_cons_self]
  | cons a l ih =>
    have hax : a ≠ x := fun e => h (e ▸ List.mem_cons_self a l)
    rw [List.cons_append, List.indexOf_cons_ne _ hax,
      ih (fun hm => h (List.mem_cons_of_mem _ hm)), List.length_cons]

/-- Filtering with a pointwise-stronger predicate keeps no more elements. -/
theorem length_filter_mono {p1 p2 : String → Bool}
    (hmono : ∀ x, p1 x = true → p2 x = true) :
    ∀ l : List String, (l.filter p1).length ≤ (l.filter p2).length := by
  intro l
  induction l with
  | nil => exact Nat.le_refl 0
  | cons a l ih =>
    rw [List.filter_cons, List.filter_cons]
    cases h1 : p1 a with
    | true =>
      rw [hmono a h1]
      simp only [eq_self_iff_true, if_true, List.length_cons]
      omega
    | false =>
      cases h2 : p2 a with
      | true =>
        simp only [Bool.false_eq_true, if_false, eq_self_iff_true, if_true,
          List.length_cons]
        omega
      | false =>
        simp only [Bool.false_eq_true, if_false]
        exact ih

/-- Filtering with a pointwise-stronger predicate that additionally drops a
present element keeps strictly fewer elements. -/
theorem length_filter_lt_of_mem {p1 p2 : String → Bool}
    (hmono : ∀ x, p1 x = true → p2 x = true) (a : String)
    (ha1 : p1 a = false) (ha2 : p2 a = true) :
    ∀ l : List String, a ∈ l → (l.filter p1).length < (l.filter p2).length := by
  intro l
  induction l with
  | nil => intro h; exact absurd h (List.not_mem_nil a)
  | cons k rest ih =>
    intro hmem
    rw [List.filter_cons, List.filter_cons]
    rcases List.mem_cons.mp hmem with rfl | hmem'
    · rw [ha1, ha2]
      have hm := length_filter_mono hmono rest
      simp only [Bool.false_eq_true, if_false, eq_self_iff_true, if_true,
        List.length_cons]
      omega
    · have hlt := ih hmem'
      cases h1 : p1 k with
      | true =>
        rw [hmono k h1]
        simp only [eq_self_iff_true, if_true, List.length_cons]
        omega
      | false =>
        cases h2 : p2 k with
        | true =>
          simp only [Bool.false_eq_true, if_false, eq_self_iff_true, if_true,
            List.length_cons]
          omega
        | false =>
          simp only [Bool.false_eq_true, if_false]
          exact hlt

/-- Pushing a fresh registered name on the stack strictly shrinks the fuel
measure. -/
theorem notVisitingCount_push {r : Registry} {name : String} {visiting : List String}
    (hreg : isRegistered r name = true) (hnot : name ∉ visiting) :
    notVisitingCount r (name :: visiting) < notVisitingCount r visiting := by
  unfold notVisitingCount
  refine length_filter_lt_of_mem ?_ name ?_ ?_ _ ?_
  · intro x hx
    simp only [decide_eq_true_eq] at hx ⊢
    intro hm
    exact hx (List.mem_cons_of_mem _ hm)
  · simp
  · simpa using hnot
  · unfold isRegistered at hreg
    rcases List.any_eq_true.mp hreg with ⟨p, hp, he⟩
    have : p.1 = name := by simpa using he
    exact this ▸ List.mem_map_of_mem Prod.fst hp

/-- The fuel measure is bounded by the registry size. -/
theorem notVisitingCount_le (r : Registry) (visiting : List String) :
    notVisitingCount r visiting ≤ r.deps.length := by
  unfold notVisitingCount
  calc ((r.deps.map Prod.fst).filter _).length
      ≤ (r.deps.map Prod.fst).length := List.length_filter_le _ _
    _ = r.deps.length := List.length_map _ _

/-- Appending an edge to a dependency path. -/
theorem depPath_snoc {r : Registry} {a b c : String}
    (hp : DepPath r a b) : Edge r b c → DepPath r a c := by
  induction hp with
  | single h => intro he; exact .cons h (.single he)
  | cons h _ ih => intro he; exact .cons h (ih he)

/-- Every name on a dependency chain reaches the head of the chain. -/
theorem stackChain_reaches_head {r : Registry} :
    ∀ {p : String} {rest : List String}, StackChain r (p :: rest) →
      ∀ x ∈ p :: rest, x = p ∨ DepPath r x p := by
  intro p rest
  induction rest generalizing p with
  | nil =>
    intro _ x hx
    rcases List.mem_cons.mp hx with rfl | h
    · exact Or.inl rfl
    · exact absurd h (List.not_mem_nil x)
  | cons b rest' ih =>
    intro hch x hx
    cases hch with
    | cons he hch' =>
      rcases List.mem_cons.mp hx with rfl | hx'
      · exact Or.inl rfl
      · rcases ih hch' x hx' with rfl | hp
        · exact Or.inr (.single he)
        · exact Or.inr (depPath_snoc hp he)

/-- The empty DFS state satisfies the invariant. -/
theorem VisitInv_init (r : Registry) : VisitInv r ⟨[], [], []⟩ := by
  refine ⟨List.nodup_nil, ?_, ?_, List.nodup_nil, ?_⟩ <;> simp [VisitSt.visited]

/-- Pushing a fresh, unvisited name on the stack preserves the invariant. -/
theorem VisitInv_push (r : Registry) (st : VisitSt) (name : String)
    (hinv : VisitInv r st) (h1 : name ∉ st.visiting) (h2 : name ∉ st.visited) :
    VisitInv r { st with visiting := name :: st.visiting } := by
  obtain ⟨hn, hvr, hcl, hvn, hdisj⟩ := hinv
  refine ⟨hn, hvr, hcl, List.nodup_cons.mpr ⟨h1, hvn⟩, ?_⟩
  intro x hx hmem
  rcases List.mem_cons.mp hmem with rfl | hm
  · exact h2 ((hvr x).mpr hx)
  · exact hdisj x hx hm

/-- Finishing a visit (move the name from the stack to `visited`, append it
to `resolved`) preserves the invariant and restores the stack, provided
every registered dependency of the name is already visited. -/
theorem VisitInv_finish (r : Registry) (st st2 : VisitSt) (name : String)
    (h1 : name ∉ st.visiting)
    (hinv2 : VisitInv r st2)
    (hvis2 : st2.visiting = name :: st.visiting)
    (hdepcl : ∀ d, Edge r name d → d ∈ st2.visited) :
    VisitInv r { resolved := st2.resolved ++ [name],
                 visiting := st2.visiting.erase name,
                 visited := name :: st2.visited } ∧
    st2.visiting.erase name = st.visiting := by
  obtain ⟨hn2, hvr2, hcl2, hvn2, hdisj2⟩ := hinv2
  have hnmem2 : name ∉ st2.resolved := by
    intro hmem
    exact hdisj2 name hmem (by rw [hvis2]; exact List.mem_cons_self _ _)
  have herase : st2.visiting.erase name = st.visiting := by
    rw [hvis2, List.erase_cons_head]
  refine ⟨⟨?_, ?_, ?_, ?_, ?_⟩, herase⟩
  · rw [List.nodup_append]
    exact ⟨hn2, List.nodup_singleton name,
      fun x hx hx' => hnmem2 ((List.mem_singleton.mp hx') ▸ hx)⟩
  · intro x
    constructor
    · intro hx
      rcases List.mem_cons.mp hx with rfl | hm
      · exact List.mem_append.mpr (Or.inr (List.mem_singleton_self _))
      · exact List.mem_append.mpr (Or.inl ((hvr2 x).mp hm))
    · intro hx
      rcases List.mem_append.mp hx with hm | hm
      · exact List.mem_cons_of_mem _ ((hvr2 x).mpr hm)
      · rw [List.mem_singleton.mp hm]; exact List.mem_cons_self _ _
  · intro n d hn hedge
    rcases List.mem_append.mp hn with hold | hnew
    · obtain ⟨hd, hidx⟩ := hcl2 n d hold hedge
      refine ⟨List.mem_append.mpr (Or.inl hd), ?_⟩
      rw [indexOf_append_left [name] hd, indexOf_append_left [name] hold]
      exact hidx
    · have hne : n = name := List.mem_singleton.mp hnew
      subst hne
      have hdr : d ∈ st2.resolved := (hvr2 d).mp (hdepcl d hedge)
      refine ⟨List.mem_append.mpr (Or.inl hdr), ?_⟩
      rw [indexOf_append_left [n] hdr, indexOf_append_self hnmem2]
      exact List.indexOf_lt_length.mpr hdr
  · exact hvn2.erase name
  · intro x hx
    rw [herase]
    rcases List.mem_append.mp hx with hold | hnew
    · intro hm
      exact hdisj2 x hold (by rw [hvis2]; exact List.mem_cons_of_mem _ hm)
    · rw [List.mem_singleton.mp hnew]
      exact h1

/-- The dependency loop satisfies its success contract whenever
`visitAction` at the same fuel does. -/
theorem visitDeps_ok_spec_aux (r : Registry) (fuel : Nat)
    (hA : ∀ (name : String) (st st' : VisitSt), VisitInv r st →
      visitAction r fuel name st = .ok st' → VisitOkSpec r name st st') :
    ∀ (ds : List String) (st st' : VisitSt), VisitInv r st →
      visitDeps r fuel ds st = .ok st' → VisitDepsOkSpec r ds st st' := by
  intro ds
  induction ds with
  | nil =>
    intro st st' hinv hok
    unfold visitDeps at hok
    injection hok with h
    subst h
    exact ⟨hinv, rfl, ⟨[], (List.append_nil _).symm⟩, fun x hx => hx,
      fun d hd _ => absurd hd (List.not_mem_nil d)⟩
  | cons d rest ih =>
    intro st st' hinv hok
    unfold visitDeps at hok
    by_cases hreg : isRegistered r d = true
    · rw [if_pos hreg] at hok
      cases hva : visitAction r fuel d st with
      | error e => rw [hva] at hok; simp at hok
      | ok st1 =>
        rw [hva] at hok
        obtain ⟨hinv1, hvis1, ⟨t1, hres1⟩, hmono1, hd1⟩ := hA d st st1 hinv hva
        obtain ⟨hinv2, hvis2, ⟨t2, hres2⟩, hmono2, hrest⟩ := ih st1 st' hinv1 hok
        refine ⟨hinv2, by rw [hvis2, hvis1],
          ⟨t1 ++ t2, by rw [hres2, hres1, List.append_assoc]⟩,
          fun x hx => hmono2 x (hmono1 x hx), ?_⟩
        intro d' hd' hreg'
        rcases List.mem_cons.mp hd' with rfl | hmem
        · exact hmono2 _ hd1
        · exact hrest d' hmem hreg'
    · rw [if_neg hreg] at hok
      obtain ⟨hinv2, hvis2, hres2, hmono2, hrest⟩ := ih st st' hinv hok
      refine ⟨hinv2, hvis2, hres2, hmono2, ?_⟩
      intro d' hd' hreg'
      rcases List.mem_cons.mp hd' with rfl | hmem
      · exact absurd hreg' hreg
      · exact hrest d' hmem hreg'

/-- Success contract of `visitAction`, by induction on the fuel. -/
theorem visitAction_ok_spec (r : Registry) : ∀ (fuel : Nat)
    (name : String) (st st' : VisitSt), VisitInv r st →
    visitAction r fuel name st = .ok st' → VisitOkSpec r name st st' := by
  intro fuel
  induction fuel with
  | zero =>
    intro name st st' _ hok
    unfold visitAction at hok
    simp at hok
  | succ f ihf =>
    intro name st st' hinv hok
    have hD := visitDeps_ok_spec_aux r f ihf
    unfold visitAction at hok
    by_cases hvg : name ∈ st.visiting
    · rw [if_pos hvg] at hok; simp at hok
    · rw [if_neg hvg] at hok
      by_cases hvd : name ∈ st.visited
      · rw [if_pos hvd] at hok
        injection hok with h
        subst h
        exact ⟨hinv, rfl, ⟨[], (List.append_nil _).symm⟩, fun x hx => hx, hvd⟩
      · rw [if_neg hvd] at hok
        cases hdeps : depsOf r name with
        | none =>
          rw [hdeps] at hok
          injection hok with h
          subst h
          have hinv1 := VisitInv_push r st name hinv hvg hvd
          have hdepcl : ∀ d, Edge r name d →
              d ∈ ({st with visiting := name :: st.visiting} : VisitSt).visited := by
            intro d hedge
            rcases hedge with ⟨_, _, hmem⟩
            rw [hdeps] at hmem
            exact absurd hmem (List.not_mem_nil d)
          obtain ⟨hinv', herase⟩ := VisitInv_finish r st _ name hvg hinv1 rfl hdepcl
          exact ⟨hinv', herase, ⟨[name], rfl⟩,
            fun x hx => List.mem_cons_of_mem _ hx, List.mem_cons_self _ _⟩
        | some ds =>
          rw [hdeps] at hok
          have hok2 : (match visitDeps r f ds
              {st with visiting := name :: st.visiting} with
            | Except.error e => Except.error e
            | Except.ok st2 =>
              Except.ok { resolved := st2.resolved ++ [name],
                          visiting := st2.visiting.erase name,
                          visited := name :: st2.visited }) = Except.ok st' := hok
          cases hvdeps : visitDeps r f ds {st with visiting := name :: st.visiting} with
          | error e => rw [hvdeps] at hok2; simp at hok2
          | ok st2 =>
            rw [hvdeps] at hok2
            injection hok2 with h
            subst h
            have hinv1 := VisitInv_push r st name hinv hvg hvd
            obtain ⟨hinv2, hvis2, ⟨t2, hres2⟩, hmono2, hdl⟩ := hD ds _ st2 hinv1 hvdeps
            have hdepcl : ∀ d, Edge r name d → d ∈ st2.visited := by
              intro d hedge
              rcases hedge with ⟨_, hregd, hmem⟩
              rw [hdeps] at hmem
              exact hdl d hmem hregd
            obtain ⟨hinv', herase⟩ :=
              VisitInv_finish r st st2 name hvg hinv2 (by rw [hvis2]) hdepcl
            refine ⟨hinv', herase,
              ⟨t2 ++ [name], by rw [hres2]; simp [List.append_assoc]⟩,
              fun x hx => List.mem_cons_of_mem _ (hmono2 x hx), List.mem_cons_self _ _⟩

/-- The dependency loop reports a circular error only for a name lying on a
cycle, whenever `visitAction` at the same fuel does. -/
theorem visitDeps_err_spec_aux (r : Registry) (fuel : Nat)
    (hAerr : ∀ (name : String) (st : VisitSt) (m : String), VisitInv r st →
      StackChain r st.visiting →
      (st.visiting = [] ∨ ∃ p rest, st.visiting = p :: rest ∧ Edge r p name) →
      visitAction r fuel name st = .error (.circular m) → OnCycle r m) :
    ∀ (ds : List String) (st : VisitSt) (m : String), VisitInv r st →
      StackChain r st.visiting →
      (∃ p rest, st.visiting = p :: rest ∧ isRegistered r p = true ∧
        ∀ d ∈ ds, d ∈ (depsOf r p).getD []) →
      visitDeps r fuel ds st = .error (.circular m) → OnCycle r m := by
  intro ds
  induction ds with
  | nil =>
    intro st m _ _ _ herr
    unfold visitDeps at herr
    simp at herr
  | cons d rest ih =>
    intro st m hinv hch hentry herr
    obtain ⟨p, rest', hvis, hregp, hdeps⟩ := hentry
    unfold visitDeps at herr
    by_cases hreg : isRegistered r d = true
    · rw [if_pos hreg] at herr
      cases hva : visitAction r fuel d st with
      | error e =>
        rw [hva] at herr
        injection herr with h
        subst h
        exact hAerr d st m hinv hch
          (Or.inr ⟨p, rest', hvis, hregp, hreg, hdeps d (List.mem_cons_self _ _)⟩) hva
      | ok st1 =>
        rw [hva] at herr
        obtain ⟨hinv1, hvis1, _, _, _⟩ := visitAction_ok_spec r fuel d st st1 hinv hva
        exact ih st1 m hinv1 (by rw [hvis1]; exact hch)
          ⟨p, rest', by rw [hvis1, hvis], hregp,
            fun d' hd' => hdeps d' (List.mem_cons_of_mem _ hd')⟩ herr
    · rw [if_neg hreg] at herr
      exact ih st m hinv hch
        ⟨p, rest', hvis, hregp, fun d' hd' => hdeps d' (List.mem_cons_of_mem _ hd')⟩ herr

/-- A circular-dependency error always names an action lying on a cycle. -/
theorem visitAction_err_spec (r : Registry) : ∀ (fuel : Nat)
    (name : String) (st : VisitSt) (m : String), VisitInv r st →
    StackChain r st.visiting →
    (st.visiting = [] ∨ ∃ p rest, st.visiting = p :: rest ∧ Edge r p name) →
    visitAction r fuel name st = .error (.circular m) → OnCycle r m := by
  intro fuel
  induction fuel with
  | zero =>
    intro name st m _ _ _ herr
    unfold visitAction at herr
    injection herr with h
    exact absurd h (by simp)
  | succ f ihf =>
    intro name st m hinv hch hentry herr
    unfold visitAction at herr
    by_cases hvg : name ∈ st.visiting
    · rw [if_pos hvg] at herr
      injection herr with h
      injection h with h2
      subst h2
      rcases hentry with hnil | ⟨p, rest, hvis, hedge⟩
      · rw [hnil] at hvg
        exact absurd hvg (List.not_mem_nil _)
      · rw [hvis] at hvg
        have hch' : StackChain r (p :: rest) := hvis ▸ hch
        rcases stackChain_reaches_head hch' name hvg with rfl | hpath
        · exact DepPath.single hedge
        · exact depPath_snoc hpath hedge
    · rw [if_neg hvg] at herr
      by_cases hvd : name ∈ st.visited
      · rw [if_pos hvd] at herr
        simp at herr
      · rw [if_neg hvd] at herr
        have hinv1 := VisitInv_push r st name hinv hvg hvd
        have hch1 : StackChain r (name :: st.visiting) := by
          rcases hentry with hnil | ⟨p, rest, hvis, hedge⟩
          · rw [hnil]
            exact .single name
          · rw [hvis]
            exact .cons hedge (hvis ▸ hch)
        cases hdeps : depsOf r name with
        | none =>
          rw [hdeps] at herr
          exact Except.noConfusion herr
        | some ds =>
          rw [hdeps] at herr
          have herr2 : (match visitDeps r f ds
              {st with visiting := name :: st.visiting} with
            | Except.error e => Except.error e
            | Except.ok st2 =>
              Except.ok { resolved := st2.resolved ++ [name],
                          visiting := st2.visiting.erase name,
                          visited := name :: st2.visited })
              = (Except.error (ResolveErr.circular m) : Except ResolveErr VisitSt) := herr
          cases hvdeps : visitDeps r f ds {st with visiting := name :: st.visiting} with
          | ok st2 => rw [hvdeps] at herr2; simp at herr2
          | error e =>
            rw [hvdeps] at herr2
            injection herr2 with h
            subst h
            exact visitDeps_err_spec_aux r f ihf ds _ m hinv1 hch1
              ⟨name, st.visiting, rfl, depsOf_isRegistered hdeps,
                fun d' hd' => by rw [hdeps]; exact hd'⟩ hvdeps

/-- The dependency loop never runs out of fuel when `visitAction` at the
same fuel cannot. -/
theorem visitDeps_fuel_aux (r : Registry) (fuel : Nat)
    (hA : ∀ (name : String) (st : VisitSt), VisitInv r st →
      notVisitingCount r st.visiting < fuel →
      visitAction r fuel name st ≠ .error .outOfFuel) :
    ∀ (ds : List String) (st : VisitSt), VisitInv r st →
      notVisitingCount r st.visiting < fuel →
      visitDeps r fuel ds st ≠ .error .outOfFuel := by
  intro ds
  induction ds with
  | nil =>
    intro st _ _ herr
    unfold visitDeps at herr
    simp at herr
  | cons d rest ih =>
    intro st hinv hcnt herr
    unfold visitDeps at herr
    by_cases hreg : isRegistered r d = true
    · rw [if_pos hreg] at herr
      cases hva : visitAction r fuel d st with
      | error e =>
        rw [hva] at herr
        injection herr with h
        subst h
        exact hA d st hinv hcnt hva
      | ok st1 =>
        rw [hva] at herr
        obtain ⟨hinv1, hvis1, _, _, _⟩ := visitAction_ok_spec r fuel d st st1 hinv hva
        exact ih st1 hinv1 (by rw [hvis1]; exact hcnt) herr
    · rw [if_neg hreg] at herr
      exact ih st hinv hcnt herr

/-- With fuel exceeding the number of registered names not on the stack,
`visitAction` never reports fuel exhaustion. -/
theorem visitAction_fuel (r : Registry) : ∀ (fuel : Nat)
    (name : String) (st : VisitSt), VisitInv r st →
    notVisitingCount r st.visiting < fuel →
    visitAction r fuel name st ≠ .error .outOfFuel := by
  intro fuel
  induction fuel with
  | zero =>
    intro name st _ hcnt
    exact absurd hcnt (Nat.not_lt_zero _)
  | succ f ihf =>
    intro name st hinv hcnt herr
    unfold visitAction at herr
    by_cases hvg : name ∈ st.visiting
    · rw [if_pos hvg] at herr
      injection herr with h
      exact ResolveErr.noConfusion h
    · rw [if_neg hvg] at herr
      by_cases hvd : name ∈ st.visited
      · rw [if_pos hvd] at herr
        simp at herr
      · rw [if_neg hvd] at herr
        cases hdeps : depsOf r name with
        | none =>
          rw [hdeps] at herr
          exact Except.noConfusion herr
        | some ds =>
          rw [hdeps] at herr
          have herr2 : (match visitDeps r f ds
              {st with visiting := name :: st.visiting} with
            | Except.error e => Except.error e
            | Except.ok st2 =>
              Except.ok { resolved := st2.resolved ++ [name],
                          visiting := st2.visiting.erase name,
                          visited := name :: st2.visited })
              = (Except.error ResolveErr.outOfFuel : Except ResolveErr VisitSt) := herr
          cases hvdeps : visitDeps r f ds {st with visiting := name :: st.visiting} with
          | ok st2 => rw [hvdeps] at herr2; simp at herr2
          | error e =>
            rw [hvdeps] at herr2
            injection herr2 with h
            subst h
            have hinv1 := VisitInv_push r st name hinv hvg hvd
            have hdec := notVisitingCount_push (depsOf_isRegistered hdeps) hvg
            exact visitDeps_fuel_aux r f ihf ds _ hinv1
              (by show notVisitingCount r (name :: st.visiting) < f; omega) hvdeps

/-- Success contract of the top-level name loop. -/
theorem resolveTopLevel_ok_spec (r : Registry) :
    ∀ (names : List String) (st st' : VisitSt),
      VisitInv r st → st.visiting = [] →
      resolveTopLevel r names st = .ok st' →
      VisitInv r st' ∧ st'.visiting = [] ∧
      (∀ n ∈ names, n ∈ st'.visited) ∧ (∀ x ∈ st.visited, x ∈ st'.visited) := by
  intro names
  induction names with
  | nil =>
    intro st st' hinv hnil hok
    unfold resolveTopLevel at hok
    injection hok with h
    subst h
    exact ⟨hinv, hnil, fun n hn => absurd hn (List.not_mem_nil n), fun x hx => hx⟩
  | cons n ns ih =>
    intro st st' hinv hnil hok
    unfold resolveTopLevel at hok
    by_cases hv : n ∈ st.visited
    · rw [if_pos hv] at hok
      obtain ⟨hinv', hnil', hns, hmono⟩ := ih st st' hinv hnil hok
      refine ⟨hinv', hnil', ?_, hmono⟩
      intro x hx
      rcases List.mem_cons.mp hx with rfl | hm
      · exact hmono x hv
      · exact hns x hm
    · rw [if_neg hv] at hok
      cases hva : visitAction r (resolveFuel r) n st with
      | error e => rw [hva] at hok; simp at hok
      | ok st1 =>
        rw [hva] at hok
        obtain ⟨hinv1, hvis1, _, hmono1, hn1⟩ :=
          visitAction_ok_spec r _ n st st1 hinv hva
        obtain ⟨hinv', hnil', hns, hmono2⟩ :=
          ih st1 st' hinv1 (by rw [hvis1, hnil]) hok
        refine ⟨hinv', hnil', ?_, fun x hx => hmono2 x (hmono1 x hx)⟩
        intro x hx
        rcases List.mem_cons.mp hx with rfl | hm
        · exact hmono2 x hn1
        · exact hns x hm

/-- A circular error at top level names an action on a cycle. -/
theorem resolveTopLevel_err_circular (r : Registry) :
    ∀ (names : List String) (st : VisitSt) (m : String),
      VisitInv r st → st.visiting = [] →
      resolveTopLevel r names st = .error (.circular m) → OnCycle r m := by
  intro names
  induction names with
  | nil =>
    intro st m _ _ herr
    unfold resolveTopLevel at herr
    simp at herr
  | cons n ns ih =>
    intro st m hinv hnil herr
    unfold resolveTopLevel at herr
    by_cases hv : n ∈ st.visited
    · rw [if_pos hv] at herr
      exact ih st m hinv hnil herr
    · rw [if_neg hv] at herr
      cases hva : visitAction r (resolveFuel r) n st with
      | error e =>
        rw [hva] at herr
        injection herr with h
        subst h
        exact visitAction_err_spec r _ n st m hinv (by rw [hnil]; exact .nil)
          (Or.inl hnil) hva
      | ok st1 =>
        rw [hva] at herr
        obtain ⟨hinv1, hvis1, _, _, _⟩ := visitAction_ok_spec r _ n st st1 hinv hva
        exact ih st1 m hinv1 (by rw [hvis1, hnil]) herr

/-- The fuel bound `resolveFuel` suffices: resolution never reports fuel
exhaustion. -/
theorem resolveTopLevel_no_fuel (r : Registry) :
    ∀ (names : List String) (st : VisitSt), VisitInv r st →
      resolveTopLevel r names st ≠ .error .outOfFuel := by
  intro names
  induction names with
  | nil =>
    intro st _ herr
    unfold resolveTopLevel at herr
    simp at herr
  | cons n ns ih =>
    intro st hinv herr
    unfold resolveTopLevel at herr
    by_cases hv : n ∈ st.visited
    · rw [if_pos hv] at herr
      exact ih st hinv herr
    · rw [if_neg hv] at herr
      cases hva : visitAction r (resolveFuel r) n st with
      | error e =>
        rw [hva] at herr
        injection herr with h
        subst h
        have hb : notVisitingCount r st.visiting < resolveFuel r := by
          have := notVisitingCount_le r st.visiting
          unfold resolveFuel
          omega
        exact visitAction_fuel r _ n st hinv hb hva
      | ok st1 =>
        rw [hva] at herr
        obtain ⟨hinv1, _, _, _, _⟩ := visitAction_ok_spec r _ n st st1 hinv hva
        exact ih st1 hinv1 herr

/-- C4: dependency resolution (a) on success returns a duplicate-free order
containing every enabled name in which every registered dependency precedes
its dependents (unregistered dependencies having been skipped with a
warning); (b) succeeds whenever the registered dependency graph is acyclic;
(c) fails with an error naming an action on a cycle whenever a cycle is
reachable from an enabled name. -/
theorem c4_resolve_dependencies_correct (r : Registry) (names : List String) :
    (∀ order, resolveDependencies r names = .ok order →
      order.Nodup ∧ (∀ n ∈ names, n ∈ order) ∧
      (∀ n d, n ∈ order → Edge r n d →
        d ∈ order ∧ order.indexOf d < order.indexOf n)) ∧
    ((∀ m, ¬ OnCycle r m) → ∃ order, resolveDependencies r names = .ok order) ∧
    ((∃ n ∈ names, ∃ m, (n = m ∨ DepPath r n m) ∧ OnCycle r m) →
      ∃ m', resolveDependencies r names = .error (.circular m') ∧ OnCycle r m') := by
  have hokmain : ∀ order, resolveDependencies r names = .ok order →
      order.Nodup ∧ (∀ n ∈ names, n ∈ order) ∧
      (∀ n d, n ∈ order → Edge r n d →
        d ∈ order ∧ order.indexOf d < order.indexOf n) := by
    intro order hok
    unfold resolveDependencies at hok
    cases hres : resolveTopLevel r names ⟨[], [], []⟩ with
    | error e => rw [hres] at hok; exact Except.noConfusion hok
    | ok st' =>
      rw [hres] at hok
      injection hok with h
      subst h
      obtain ⟨hinv', _, hns, _⟩ :=
        resolveTopLevel_ok_spec r names _ st' (VisitInv_init r) rfl hres
      obtain ⟨hnodup, hvr, hcl, _, _⟩ := hinv'
      exact ⟨hnodup, fun n hn => (hvr n).mp (hns n hn), hcl⟩
  have herrmain : ∀ m', resolveDependencies r names = .error (.circular m') →
      OnCycle r m' := by
    intro m' herr
    unfold resolveDependencies at herr
    cases hres : resolveTopLevel r names ⟨[], [], []⟩ with
    | ok st' => rw [hres] at herr; exact Except.noConfusion herr
    | error e =>
      rw [hres] at herr
      injection herr with h
      subst h
      exact resolveTopLevel_err_circular r names _ m' (VisitInv_init r) rfl hres
  have hnofuel : resolveDependencies r names ≠ .error .outOfFuel := by
    intro herr
    unfold resolveDependencies at herr
    cases hres : resolveTopLevel r names ⟨[], [], []⟩ with
    | ok st' => rw [hres] at herr; exact Except.noConfusion herr
    | error e =>
      rw [hres] at herr
      injection herr with h
      subst h
      exact resolveTopLevel_no_fuel r names _ (VisitInv_init r) hres
  refine ⟨hokmain, ?_, ?_⟩
  · intro hacy
    cases hres : resolveDependencies r names with
    | ok order => exact ⟨order, rfl⟩
    | error e =>
      exfalso
      cases e with
      | circular m => exact hacy m (herrmain m hres)
      | outOfFuel => exact hnofuel hres
  · rintro ⟨n, hn, m, hreach, hcyc⟩
    cases hres : resolveDependencies r names with
    | ok order =>
      exfalso
      obtain ⟨hnodup, hmemn, hcl⟩ := hokmain order hres
      have hmem_of_path : ∀ a b, DepPath r a b → a ∈ order →
          b ∈ order ∧ order.indexOf b < order.indexOf a := by
        intro a b hp
        induction hp with
        | single he => intro ha; exact hcl _ _ ha he
        | cons he hp' ih =>
          intro ha
          obtain ⟨hb, hib⟩ := hcl _ _ ha he
          obtain ⟨hc, hic⟩ := ih hb
          exact ⟨hc, lt_trans hic hib⟩
      have hmm : m ∈ order := by
        rcases hreach with rfl | hp
        · exact hmemn _ hn
        · exact (hmem_of_path n m hp (hmemn n hn)).1
      exact Nat.lt_irrefl _ (hmem_of_path m m hcyc hmm).2
    | error e =>
      cases e with
      | circular m' => exact ⟨m', rfl, herrmain m' hres⟩
      | outOfFuel => exact absurd hres hnofuel

/-- Witness for C4 on a concrete two-action registry (`A` depends on `B`):
its dependency graph is acyclic, so resolution succeeds. -/
theorem c4_resolve_dependencies_correct_witness :
    ∃ order, resolveDependencies ⟨[("A", ["B"]), ("B", [])]⟩ ["A"] = .ok order := by
  refine (c4_resolve_dependencies_correct ⟨[("A", ["B"]), ("B", [])]⟩ ["A"]).2.1 ?_
  have hedge : ∀ a b, Edge ⟨[("A", ["B"]), ("B", [])]⟩ a b → a = "A" ∧ b = "B" := by
    intro a b hE
    obtain ⟨hra, _, hmem⟩ := hE
    have ha : a = "A" ∨ a = "B" := by
      unfold isRegistered at hra
      rcases List.any_eq_true.mp hra with ⟨p, hp, he⟩
      have he' : p.1 = a := by simpa using he
      rcases List.mem_cons.mp hp with rfl | hp2
      · left; rw [← he']
      · rcases List.mem_cons.mp hp2 with rfl | hp3
        · right; rw [← he']
        · exact absurd hp3 (List.not_mem_nil _)
    rcases ha with rfl | rfl
    · refine ⟨rfl, ?_⟩
      have hd : depsOf ⟨[("A", ["B"]), ("B", [])]⟩ "A" = some ["B"] := rfl
      rw [hd] at hmem
      exact List.mem_singleton.mp hmem
    · exfalso
      have hd : depsOf ⟨[("A", ["B"]), ("B", [])]⟩ "B" = some [] := rfl
      rw [hd] at hmem
      exact absurd hmem (List.not_mem_nil _)
  intro m hcyc
  cases hcyc with
  | single he =>
    obtain ⟨h1, h2⟩ := hedge _ _ he
    exact absurd (h1.symm.trans h2) (by decide)
  | cons he hp =>
    obtain ⟨_, h2⟩ := hedge _ _ he
    subst h2
    cases hp with
    | single he2 => exact absurd (hedge _ _ he2).1 (by decide)
    | cons he2 _ => exact absurd (hedge _ _ he2).1 (by decide)

end EvmTrack
